import Mathlib

/-!
Verification of the P&ID symbol extractor scripts
(`extract_iso_valves_symbols.py`, `extract_pip_pipes_and_signal_lines_symbols.py`,
`extract_pip_fittings_symbols.py`).

The scripts transform SVG fragments by plain string operations.  We embed the
relevant routines over `List Char`: Python `str.replace` becomes `replaceAll`
(respectively `replaceFirst` for `str.replace(old, new, 1)`), the `'>'` split /
join becomes `splitGt` / `joinGt`, and the single regular expression
`\s+v:\w+="[^"]*"` (whose quantifiers are deterministic here: each greedy
piece is followed by a character that the piece itself can never match, so
maximal munch is the only possible parse) becomes the explicit scanner
`stripVAttrs`.  `\s` and `\w` are modelled by their ASCII meaning, which covers
all inputs appearing in the development.
-/

namespace PidSpec

open scoped List

/-- Boolean prefix test on character lists (Python `str.startswith`). -/
def isPre : List Char → List Char → Bool
  | [], _ => true
  | _ :: _, [] => false
  | a :: as, b :: bs => a == b && isPre as bs

/-- Boolean substring test on character lists (Python `in` on strings). -/
def containsSub (p : List Char) : List Char → Bool
  | [] => isPre p []
  | c :: rest => isPre p (c :: rest) || containsSub p rest

/-- Number of positions at which `p` occurs as a substring (used to express
"exactly one occurrence"; for the patterns we count, occurrences cannot
overlap, so this is the ordinary occurrence count). -/
def countPos (p : List Char) : List Char → Nat
  | [] => 0
  | c :: rest => (if isPre p (c :: rest) then 1 else 0) + countPos p rest

/-- Recursion core of `replaceAll`, structurally recursive on a fuel bound
so that the kernel can evaluate it (the fuel never runs out when it starts at
the length of the string, since every step consumes at least one character).
-/
def replaceAllGo (p r : List Char) : Nat → List Char → List Char
  | _, [] => []
  | 0, s => s
  | f + 1, c :: rest =>
      if isPre p (c :: rest) && !(p.isEmpty) then
        r ++ replaceAllGo p r f ((c :: rest).drop p.length)
      else
        c :: replaceAllGo p r f rest

/-- Python `s.replace(old, new)`: replace all non-overlapping occurrences,
scanning left to right. -/
def replaceAll (p r s : List Char) : List Char :=
  replaceAllGo p r s.length s

theorem replaceAllGo_fuel {p r : List Char} :
    ∀ (f1 f2 : Nat) (s : List Char), s.length ≤ f1 → s.length ≤ f2 →
      replaceAllGo p r f1 s = replaceAllGo p r f2 s := by
  intro f1
  induction f1 with
  | zero =>
      intro f2 s h1 h2
      have hs : s = [] := List.length_eq_zero.mp (Nat.le_zero.mp h1)
      subst hs
      cases f2 with
      | zero => rfl
      | succ g => rfl
  | succ f ih =>
      intro f2 s h1 h2
      cases s with
      | nil =>
          cases f2 with
          | zero => rfl
          | succ g => rfl
      | cons c rest =>
          cases f2 with
          | zero => simp at h2
          | succ g =>
              simp only [List.length_cons] at h1 h2
              rw [replaceAllGo, replaceAllGo]
              by_cases hcond : (isPre p (c :: rest) && !(p.isEmpty)) = true
              · rw [if_pos hcond, if_pos hcond]
                have hplen : 1 ≤ p.length := by
                  simp only [Bool.and_eq_true, Bool.not_eq_true'] at hcond
                  have := hcond.2
                  cases p with
                  | nil => simp [List.isEmpty] at this
                  | cons a t => simp
                have hlen : ((c :: rest).drop p.length).length ≤ f := by
                  simp only [List.length_drop, List.length_cons]
                  omega
                have hlen2 : ((c :: rest).drop p.length).length ≤ g := by
                  simp only [List.length_drop, List.length_cons]
                  omega
                rw [ih g _ hlen hlen2]
              · rw [if_neg hcond, if_neg hcond]
                rw [ih g rest (by omega) (by omega)]

theorem replaceAll_nil (p r : List Char) : replaceAll p r [] = [] := rfl

theorem replaceAll_cons_pos {p r : List Char} {c : Char} {rest : List Char}
    (h : (isPre p (c :: rest) && !(p.isEmpty)) = true) :
    replaceAll p r (c :: rest) = r ++ replaceAll p r ((c :: rest).drop p.length) := by
  have hplen : 1 ≤ p.length := by
    have h2 := h
    simp only [Bool.and_eq_true, Bool.not_eq_true'] at h2
    cases p with
    | nil => simp [List.isEmpty] at h2
    | cons a t => simp
  show replaceAllGo p r (rest.length + 1) (c :: rest) = _
  rw [replaceAllGo, if_pos h]
  rw [replaceAllGo_fuel rest.length ((c :: rest).drop p.length).length _
    (by simp only [List.length_drop, List.length_cons]; omega) (Nat.le_refl _)]
  rfl

theorem replaceAll_cons_neg {p r : List Char} {c : Char} {rest : List Char}
    (h : ¬((isPre p (c :: rest) && !(p.isEmpty)) = true)) :
    replaceAll p r (c :: rest) = c :: replaceAll p r rest := by
  show replaceAllGo p r (rest.length + 1) (c :: rest) = _
  rw [replaceAllGo, if_neg h]
  rfl

/-- Induction along the recursion structure of `replaceAll`. -/
theorem replaceAllInduct (p r : List Char) (motive : List Char → Prop)
    (case1 : motive [])
    (case2 : ∀ (c : Char) (rest : List Char),
      (isPre p (c :: rest) && !(p.isEmpty)) = true →
      motive (List.drop p.length (c :: rest)) → motive (c :: rest))
    (case3 : ∀ (c : Char) (rest : List Char),
      ¬((isPre p (c :: rest) && !(p.isEmpty)) = true) →
      motive rest → motive (c :: rest)) :
    ∀ s, motive s := by
  have main : ∀ (n : Nat) (s : List Char), s.length ≤ n → motive s := by
    intro n
    induction n with
    | zero =>
        intro s hs
        have : s = [] := List.length_eq_zero.mp (Nat.le_zero.mp hs)
        exact this ▸ case1
    | succ n ih =>
        intro s hs
        cases s with
        | nil => exact case1
        | cons c rest =>
            simp only [List.length_cons] at hs
            by_cases hcond : (isPre p (c :: rest) && !(p.isEmpty)) = true
            · refine case2 c rest hcond (ih _ ?_)
              have hplen : 1 ≤ p.length := by
                simp only [Bool.and_eq_true, Bool.not_eq_true'] at hcond
                have := hcond.2
                cases p with
                | nil => simp [List.isEmpty] at this
                | cons a t => simp
              simp only [List.length_drop, List.length_cons]
              omega
            · exact case3 c rest hcond (ih rest (by omega))
  exact fun s => main s.length s (Nat.le_refl _)

/-- Python `s.replace(old, new, 1)`: replace only the first occurrence. -/
def replaceFirst (p r : List Char) : List Char → List Char
  | [] => []
  | c :: rest =>
      if isPre p (c :: rest) && !(p.isEmpty) then
        r ++ (c :: rest).drop p.length
      else
        c :: replaceFirst p r rest

/-- Python `s.split('>')`. -/
def splitGt : List Char → List (List Char)
  | [] => [[]]
  | c :: rest =>
      if c == '>' then
        [] :: splitGt rest
      else
        match splitGt rest with
        | [] => [[c]]
        | h :: t => (c :: h) :: t

/-- Python `'>'.join(lines)`. -/
def joinGt : List (List Char) → List Char
  | [] => []
  | [x] => x
  | x :: y :: t => x ++ '>' :: joinGt (y :: t)

/-- ASCII whitespace, the characters matched by the regex class `\s`. -/
def isSpc (c : Char) : Bool :=
  c == ' ' || c == '\t' || c == '\n' || c == '\r' || c == '\x0b' || c == '\x0c'

/-- ASCII word characters, the characters matched by the regex class `\w`. -/
def isWrd (c : Char) : Bool :=
  c.isAlpha || c.isDigit || c == '_'

theorem takeWhile_len_le (p : Char → Bool) (l : List Char) :
    (l.takeWhile p).length ≤ l.length := by
  induction l with
  | nil => simp
  | cons a t ih =>
      by_cases hp : p a
      · simp [List.takeWhile_cons, hp]
        omega
      · simp [List.takeWhile_cons, hp]

/-- Attempt to match the regex `\s+v:\w+="[^"]*"` at the head of `s`,
returning the remainder of the string after the match. -/
def matchVAt (s : List Char) : Option (List Char) :=
  let sp := s.takeWhile isSpc
  if sp.isEmpty then none else
  let r1 := s.drop sp.length
  if isPre ['v', ':'] r1 then
    let r2 := r1.drop 2
    let w := r2.takeWhile isWrd
    if w.isEmpty then none else
    let r3 := r2.drop w.length
    if isPre ['=', '"'] r3 then
      let r4 := r3.drop 2
      let v := r4.takeWhile (fun c => !(c == '"'))
      let r5 := r4.drop v.length
      if isPre ['"'] r5 then some (r5.drop 1) else none
    else none
  else none

theorem matchVAt_length {s r : List Char} (h : matchVAt s = some r) :
    r.length < s.length := by
  have hsple : (s.takeWhile isSpc).length ≤ s.length := takeWhile_len_le _ _
  simp only [matchVAt] at h
  split at h
  · exact absurd h (by simp)
  · rename_i hemp
    have hsplen : 0 < (s.takeWhile isSpc).length := by
      cases hsp2 : s.takeWhile isSpc with
      | nil => rw [hsp2] at hemp; simp at hemp
      | cons a t => simp
    split at h
    · split at h
      · exact absurd h (by simp)
      · split at h
        · split at h
          · have hr : r = _ := (Option.some.injEq _ _ ▸ h).symm
            rw [hr]
            simp only [List.drop_drop, List.length_drop]
            omega
          · exact absurd h (by simp)
        · exact absurd h (by simp)
    · exact absurd h (by simp)

/-- Recursion core of `stripVAttrs`, structurally recursive on a fuel bound
(each step consumes at least one character, so fuel = length suffices). -/
def stripVGo : Nat → List Char → List Char
  | _, [] => []
  | 0, s => s
  | f + 1, c :: rest =>
      match matchVAt (c :: rest) with
      | some rem => stripVGo f rem
      | none => c :: stripVGo f rest

/-- Python `re.sub(r'\s+v:\w+="[^"]*"', '', s)`: delete every match of the
vendor-attribute pattern, scanning left to right and resuming after each
deleted match. -/
def stripVAttrs (s : List Char) : List Char :=
  stripVGo s.length s

theorem stripVGo_fuel :
    ∀ (f1 f2 : Nat) (s : List Char), s.length ≤ f1 → s.length ≤ f2 →
      stripVGo f1 s = stripVGo f2 s := by
  intro f1
  induction f1 with
  | zero =>
      intro f2 s h1 h2
      have hs : s = [] := List.length_eq_zero.mp (Nat.le_zero.mp h1)
      subst hs
      cases f2 with
      | zero => rfl
      | succ g => rfl
  | succ f ih =>
      intro f2 s h1 h2
      cases s with
      | nil =>
          cases f2 with
          | zero => rfl
          | succ g => rfl
      | cons c rest =>
          cases f2 with
          | zero => simp at h2
          | succ g =>
              simp only [List.length_cons] at h1 h2
              rw [stripVGo, stripVGo]
              cases hm : matchVAt (c :: rest) with
              | some rem =>
                  have hlt : rem.length < rest.length + 1 := by
                    simpa using matchVAt_length hm
                  exact ih g rem (by omega) (by omega)
              | none =>
                  rw [ih g rest (by omega) (by omega)]

theorem stripVAttrs_nil : stripVAttrs [] = [] := rfl

theorem stripVAttrs_cons_match {c : Char} {rest rem : List Char}
    (h : matchVAt (c :: rest) = some rem) :
    stripVAttrs (c :: rest) = stripVAttrs rem := by
  show stripVGo (rest.length + 1) (c :: rest) = _
  rw [stripVGo, h]
  have hlt : rem.length < rest.length + 1 := by
    simpa using matchVAt_length h
  exact stripVGo_fuel rest.length rem.length rem (by omega) (Nat.le_refl _)

theorem stripVAttrs_cons_none {c : Char} {rest : List Char}
    (h : matchVAt (c :: rest) = none) :
    stripVAttrs (c :: rest) = c :: stripVAttrs rest := by
  show stripVGo (rest.length + 1) (c :: rest) = _
  rw [stripVGo, h]
  rfl

/-! Fixed strings appearing in the scripts. -/

def quotEnt : List Char := ("&quot;").toList

def xmlnsEq : List Char := ("xmlns=").toList

def svgOpen : List Char := ("<svg").toList

def xmlnsIns : List Char := ("<svg xmlns=\"http://www.w3.org/2000/svg\"").toList

def xlinkHref : List Char := ("xlink:href").toList

def xmlnsXlink : List Char := ("xmlns:xlink").toList

def xlinkIns : List Char := ("<svg xmlns:xlink=\"http://www.w3.org/1999/xlink\"").toList

def swEq : List Char := ("stroke-width=").toList

def sEq : List Char := ("stroke=").toList

def redStroke : List Char := ("stroke=\"#ff0000\"").toList

def strokeHash : List Char := ("stroke=\"#").toList

def blackSW : List Char := ("stroke=\"#000000\" stroke-width=").toList

def fillEq : List Char := ("fill=").toList

def pathTag : List Char := ("<path").toList

def rectTag : List Char := ("<rect").toList

def circleTag : List Char := ("<circle").toList

def ellipseTag : List Char := ("<ellipse").toList

def polygonTag : List Char := ("<polygon").toList

def polylineTag : List Char := ("<polyline").toList

def lineTag : List Char := ("<line").toList

def fillWhite : List Char := (" fill=\"white\"").toList

def fillNone : List Char := (" fill=\"none\"").toList

def fillBlack : List Char := (" fill=\"#000000\"").toList

def declHead : List Char := ("<?xml").toList

def declStr : List Char := ("<?xml version=\"1.0\" encoding=\"UTF-8\"?>\n").toList

def rOne : List Char := ("r=\"1\"").toList

def rTwo : List Char := ("r=\"2\"").toList

def rThree : List Char := ("r=\"3\"").toList

/-- The list `shape_tags` of both extractors, in source order. -/
def shapeTags : List (List Char) :=
  [pathTag, rectTag, circleTag, ellipseTag, polygonTag, polylineTag, lineTag]

/-- `is_shape`: some shape tag occurs in the chunk. -/
def isShape (c : List Char) : Bool :=
  shapeTags.any (fun t => containsSub t c)

/-- The `for tag in shape_tags: if tag in line: line = line.replace(tag,
f'{tag} fill="none"'); break` loop shared by the red-marker branch and the
default branch of both extractors. -/
def firstTagFillNone : List (List Char) → List Char → List Char
  | [], c => c
  | t :: rest, c =>
      if containsSub t c then replaceAll t (t ++ fillNone) c
      else firstTagFillNone rest c

/-- `svg_content.replace('&quot;', '"')`. -/
def unquot (s : List Char) : List Char :=
  replaceAll quotEnt ['"'] s

/-- Namespace injection of `ISOValvesExtractor.clean_svg_content` (and the
identical code of the PIP extractor). -/
def addXmlns (s : List Char) : List Char :=
  if containsSub xmlnsEq s then s else replaceFirst svgOpen xmlnsIns s

/-- Xlink-namespace injection of `clean_svg_content`. -/
def addXlink (s : List Char) : List Char :=
  if containsSub xlinkHref s && !(containsSub xmlnsXlink s) then
    replaceFirst svgOpen xlinkIns s
  else s

/-- XML-declaration prepending of `clean_svg_content`. -/
def addDecl (s : List Char) : List Char :=
  if isPre declHead s then s else declStr ++ s

/-- Stroke-color fixup of `ISOValvesExtractor.clean_svg_content` (lines
79-83): inject `stroke="#000000"` before `stroke-width=` when the chunk has a
stroke width but no stroke, unless it carries the red marker stroke. -/
def isoStroke (c : List Char) : List Char :=
  if containsSub swEq c && !(containsSub sEq c) then
    if !(containsSub redStroke c) then replaceAll swEq blackSW c else c
  else c

/-- Fill fixup of `ISOValvesExtractor.clean_svg_content` (lines 86-123). -/
def isoFillStage (c : List Char) : List Char :=
  if !(containsSub fillEq c) && (containsSub sEq c || containsSub swEq c) then
    if containsSub redStroke c then firstTagFillNone shapeTags c
    else if containsSub pathTag c then
      if c.contains 'Z' || c.contains 'z' then
        replaceAll pathTag (pathTag ++ fillWhite) c
      else
        replaceAll pathTag (pathTag ++ fillNone) c
    else if containsSub polygonTag c then
      replaceAll polygonTag (polygonTag ++ fillWhite) c
    else if containsSub circleTag c || containsSub ellipseTag c then
      replaceAll ellipseTag (ellipseTag ++ fillWhite)
        (replaceAll circleTag (circleTag ++ fillWhite) c)
    else if containsSub rectTag c then
      replaceAll rectTag (rectTag ++ fillWhite) c
    else if containsSub lineTag c then
      replaceAll lineTag (lineTag ++ fillNone) c
    else firstTagFillNone shapeTags c
  else c

/-- Per-chunk processing of the ISO valves extractor: stroke fixup then fill
fixup, applied only to shape-bearing chunks. -/
def isoFixLine (c : List Char) : List Char :=
  if isShape c then isoFillStage (isoStroke c) else c

/-- The `'>'`-split / fix / join pass of the ISO valves extractor. -/
def isoFixShapes (s : List Char) : List Char :=
  joinGt ((splitGt s).map isoFixLine)

/-- `ISOValvesExtractor.clean_svg_content`, whole pipeline. -/
def cleanISO (s : List Char) : List Char :=
  addDecl (isoFixShapes (addXlink (addXmlns (unquot (stripVAttrs s)))))

/-- Stroke-color fixup of `PIPPipesAndSignalLinesExtractor.clean_svg_content`
(which additionally skips chunks that already carry any `stroke="#` color). -/
def pipStroke (c : List Char) : List Char :=
  if containsSub swEq c && !(containsSub sEq c) then
    if !(containsSub redStroke c) && !(containsSub strokeHash c) then
      replaceAll swEq blackSW c
    else c
  else c

/-- Fill fixup of `PIPPipesAndSignalLinesExtractor.clean_svg_content`
(lines 121-169 of that script). -/
def pipFillStage (c : List Char) : List Char :=
  if !(containsSub fillEq c) && (containsSub sEq c || containsSub swEq c) then
    if containsSub redStroke c then firstTagFillNone shapeTags c
    else if containsSub circleTag c then
      if containsSub rOne c || containsSub rTwo c || containsSub rThree c then
        replaceAll circleTag (circleTag ++ fillBlack) c
      else
        replaceAll circleTag (circleTag ++ fillWhite) c
    else if containsSub polygonTag c then
      replaceAll polygonTag (polygonTag ++ fillBlack) c
    else if containsSub pathTag c then
      if c.contains 'Z' || c.contains 'z' then
        if c.contains 'M' && (c.contains 'L' || c.contains 'l') then
          replaceAll pathTag (pathTag ++ fillBlack) c
        else
          replaceAll pathTag (pathTag ++ fillNone) c
      else
        replaceAll pathTag (pathTag ++ fillNone) c
    else if containsSub lineTag c || containsSub polylineTag c then
      replaceAll polylineTag (polylineTag ++ fillNone)
        (replaceAll lineTag (lineTag ++ fillNone) c)
    else if containsSub rectTag c then
      replaceAll rectTag (rectTag ++ fillWhite) c
    else if containsSub ellipseTag c then
      replaceAll ellipseTag (ellipseTag ++ fillWhite) c
    else firstTagFillNone shapeTags c
  else c

/-- Per-chunk processing of the PIP pipes-and-signal-lines extractor. -/
def pipFixLine (c : List Char) : List Char :=
  if isShape c then pipFillStage (pipStroke c) else c

/-- The `'>'`-split / fix / join pass of the PIP pipes extractor. -/
def pipFixShapes (s : List Char) : List Char :=
  joinGt ((splitGt s).map pipFixLine)

/-- `PIPPipesAndSignalLinesExtractor.clean_svg_content`, whole pipeline. -/
def cleanPIP (s : List Char) : List Char :=
  addDecl (pipFixShapes (addXlink (addXmlns (unquot (stripVAttrs s)))))

/-! Name resolution.  Python keeps `symbol_names` as a dict from decimal-string
keys to names; we model it as an association list from `Nat` keys (first entry
wins, matching dict membership tests), with the scraped per-section first
titles abstracted as a `List (Option (List Char))` (one entry per `<svg
viewBox` section; `none` when the section has no `<title>` match). -/

/-- Dictionary lookup, `self.symbol_names.get(str(i))`. -/
def lookupName (m : List (Nat × List Char)) (i : Nat) : Option (List Char) :=
  match m.find? (fun e => e.1 == i) with
  | none => none
  | some e => some e.2

/-- The `predefined_names` table of `ISOValvesExtractor`. -/
def predefISO : List (Nat × List Char) :=
  [(0, ("Gate Valve").toList),
   (1, ("Globe Valve").toList),
   (2, ("Ball Valve").toList),
   (3, ("Butterfly Valve").toList),
   (4, ("Check Valve").toList),
   (5, ("Check Valve - Spring Loaded").toList),
   (6, ("Plug Valve").toList),
   (7, ("Diaphragm Valve").toList),
   (8, ("Needle Valve").toList),
   (9, ("Angle Valve").toList),
   (10, ("Three-Way Valve").toList),
   (11, ("Four-Way Valve").toList),
   (12, ("Relief Valve").toList),
   (13, ("Safety Valve").toList),
   (14, ("Pressure Reducing Valve").toList),
   (15, ("Control Valve").toList),
   (16, ("Control Valve - Pneumatic").toList),
   (17, ("Control Valve - Electric").toList),
   (18, ("Control Valve - Hydraulic").toList),
   (19, ("Solenoid Valve").toList),
   (20, ("Float Valve").toList),
   (21, ("Knife Gate Valve").toList),
   (22, ("Pinch Valve").toList),
   (23, ("Rotary Valve").toList)]

/-- The title filter of `ISOValvesExtractor.extract_symbol_names`:
`'valve' in title.lower() or 'Valve' in title`. -/
def isoValveTitle (t : List Char) : Bool :=
  containsSub (("valve").toList) (t.map Char.toLower) ||
    containsSub (("Valve").toList) t

/-- The scraping loop of `ISOValvesExtractor.extract_symbol_names`: adopt the
section title when it passes the valve filter and the index has no name yet. -/
def isoScan : List (Nat × List Char) → Nat → List (Option (List Char)) →
    List (Nat × List Char)
  | m, _, [] => m
  | m, i, ot :: rest =>
      isoScan
        (match ot with
         | none => m
         | some t =>
             if isoValveTitle t then
               if lookupName m i = none then m ++ [(i, t)] else m
             else m)
        (i + 1) rest

/-- `ISOValvesExtractor.extract_symbol_names` (success path): predefined names
possibly augmented by scraped titles. -/
def isoSetupNames (titles : List (Option (List Char))) : List (Nat × List Char) :=
  isoScan predefISO 0 titles

/-- The `predefined_names` table of `PIPFittingsExtractor`. -/
def predefPIPFit : List (Nat × List Char) :=
  [(0, ("Elbow - 90 Degree").toList),
   (1, ("Elbow - 45 Degree").toList),
   (2, ("Elbow - Long Radius").toList),
   (3, ("Elbow - Reducing").toList),
   (4, ("Tee - Equal").toList),
   (5, ("Tee - Reducing").toList),
   (6, ("Tee - Barred").toList),
   (7, ("Cross - Equal").toList),
   (8, ("Cross - Reducing").toList),
   (9, ("Reducer - Concentric").toList),
   (10, ("Reducer - Eccentric").toList),
   (11, ("Coupling - Full").toList),
   (12, ("Coupling - Half").toList),
   (13, ("Union - Threaded").toList),
   (14, ("Union - Socket Weld").toList),
   (15, ("Cap - Pipe").toList),
   (16, ("Plug - Pipe").toList),
   (17, ("Blind Flange").toList),
   (18, ("Spectacle Blind").toList),
   (19, ("Spacer Ring").toList),
   (20, ("Orifice Flange").toList),
   (21, ("Flange - Weld Neck").toList),
   (22, ("Flange - Slip On").toList),
   (23, ("Flange - Socket Weld").toList),
   (24, ("Flange - Threaded").toList),
   (25, ("Flange - Lap Joint").toList),
   (26, ("Gasket - Ring").toList),
   (27, ("Gasket - Full Face").toList),
   (28, ("Nipple - Pipe").toList),
   (29, ("Swage - Concentric").toList),
   (30, ("Swage - Eccentric").toList),
   (31, ("Y-Branch").toList),
   (32, ("Lateral - 45 Degree").toList),
   (33, ("Expansion Joint").toList),
   (34, ("Flexible Connector").toList),
   (35, ("Strainer - Y Type").toList),
   (36, ("Strainer - T Type").toList),
   (37, ("Steam Trap").toList),
   (38, ("Rupture Disk").toList)]

/-- The title filter of `PIPFittingsExtractor.extract_symbol_names`:
`'Fitting' in title or 'fitting' in title.lower()`. -/
def pipFitTitle (t : List Char) : Bool :=
  containsSub (("Fitting").toList) t ||
    containsSub (("fitting").toList) (t.map Char.toLower)

/-- The scraping loop of `PIPFittingsExtractor.extract_symbol_names`: adopt
the section title for nameless in-range indices that pass the filter. -/
def pipFitScan : List (Nat × List Char) → Nat → Nat → List (Option (List Char)) →
    List (Nat × List Char)
  | m, _, _, [] => m
  | m, n, i, ot :: rest =>
      pipFitScan
        (match ot with
         | none => m
         | some t =>
             if lookupName m i = none ∧ i < n then
               if pipFitTitle t then m ++ [(i, t)] else m
             else m)
        n (i + 1) rest

/-- One iteration of the placeholder loop `for i in range(len(self.symbol_data)):
if str(i) not in self.symbol_names: self.symbol_names[str(i)] = f"PIP Fitting
{i+1}"`. -/
def pipFitFillStep (m : List (Nat × List Char)) (i : Nat) : List (Nat × List Char) :=
  if lookupName m i = none then
    m ++ [(i, ("PIP Fitting ").toList ++ (toString (i + 1)).toList)]
  else m

/-- `PIPFittingsExtractor.extract_symbol_names` (success path) for a catalog
with `n` symbols: predefined names, scraped titles, then placeholders for any
index of `range n` still missing. -/
def pipFitNames (titles : List (Option (List Char))) (n : Nat) :
    List (Nat × List Char) :=
  (List.range n).foldl pipFitFillStep (pipFitScan predefPIPFit n 0 titles)

/-! The run / exit-code skeleton of `ISOValvesExtractor.run` and `main`.
File I/O is abstracted: `loaded` is the outcome of `load_json_data` (`none`
when opening or JSON-parsing the catalog raises, making the method return
`False`; otherwise the catalog as index/SVG pairs).  `run` aborts immediately
when loading fails; otherwise it processes every catalog entry and returns
`True`.  The pair returned is (run result, number of symbols extracted, with
`none` when extraction was never reached). -/

def isoRun (loaded : Option (List (Nat × List Char))) : Bool × Option Nat :=
  match loaded with
  | none => (false, none)
  | some cat => (true, some cat.length)

/-- `main`: `return 0 if success else 1` where `success = extractor.run(...)`. -/
def isoMainExit (loaded : Option (List (Nat × List Char))) : Nat :=
  if (isoRun loaded).1 then 0 else 1

/-! Basic lemmas about `isPre` and `containsSub`. -/

theorem isPre_iff {p s : List Char} : isPre p s = true ↔ ∃ t, s = p ++ t := by
  induction p generalizing s with
  | nil => simp [isPre]
  | cons a as ih =>
      cases s with
      | nil =>
          simp only [isPre]
          constructor
          · intro h; exact absurd h (by simp)
          · rintro ⟨t, ht⟩; simp at ht
      | cons b bs =>
          simp only [isPre, Bool.and_eq_true, beq_iff_eq]
          rw [ih]
          constructor
          · rintro ⟨hab, t, ht⟩
            exact ⟨t, by rw [hab, ht]; rfl⟩
          · rintro ⟨t, ht⟩
            simp only [List.cons_append, List.cons.injEq] at ht
            exact ⟨ht.1.symm, t, ht.2⟩

theorem isPre_self_append (p t : List Char) : isPre p (p ++ t) = true :=
  isPre_iff.mpr ⟨t, rfl⟩

theorem isPre_length {p s : List Char} (h : isPre p s = true) :
    p.length ≤ s.length := by
  obtain ⟨t, rfl⟩ := isPre_iff.mp h
  simp

theorem containsSub_iff {p s : List Char} :
    containsSub p s = true ↔ ∃ a b, s = a ++ p ++ b := by
  induction s with
  | nil =>
      simp only [containsSub]
      rw [isPre_iff]
      constructor
      · rintro ⟨t, ht⟩
        exact ⟨[], t, ht⟩
      · rintro ⟨a, b, h⟩
        have ha : a = [] := by
          cases a with
          | nil => rfl
          | cons x xs => simp at h
        subst ha
        exact ⟨b, by simpa using h⟩
  | cons c rest ih =>
      simp only [containsSub, Bool.or_eq_true]
      rw [isPre_iff, ih]
      constructor
      · rintro (⟨t, ht⟩ | ⟨a, b, h⟩)
        · exact ⟨[], t, ht⟩
        · exact ⟨c :: a, b, by rw [h]; rfl⟩
      · rintro ⟨a, b, h⟩
        cases a with
        | nil => exact Or.inl ⟨b, by simpa using h⟩
        | cons x xs =>
            simp only [List.cons_append, List.cons.injEq] at h
            exact Or.inr ⟨xs, b, h.2⟩

theorem containsSub_parts (p a b : List Char) :
    containsSub p (a ++ p ++ b) = true :=
  containsSub_iff.mpr ⟨a, b, rfl⟩

theorem containsSub_refl (p : List Char) : containsSub p p = true := by
  have := containsSub_parts p [] []
  simpa using this

theorem containsSub_of_isPre {p s : List Char} (h : isPre p s = true) :
    containsSub p s = true := by
  obtain ⟨t, rfl⟩ := isPre_iff.mp h
  exact containsSub_iff.mpr ⟨[], t, by simp⟩

theorem containsSub_appendR {p s : List Char} (b : List Char)
    (h : containsSub p s = true) : containsSub p (s ++ b) = true := by
  obtain ⟨x, y, rfl⟩ := containsSub_iff.mp h
  exact containsSub_iff.mpr ⟨x, y ++ b, by simp⟩

theorem containsSub_appendL {p s : List Char} (a : List Char)
    (h : containsSub p s = true) : containsSub p (a ++ s) = true := by
  obtain ⟨x, y, rfl⟩ := containsSub_iff.mp h
  exact containsSub_iff.mpr ⟨a ++ x, y, by simp⟩

theorem containsSub_trans {q r s : List Char} (h1 : containsSub q r = true)
    (h2 : containsSub r s = true) : containsSub q s = true := by
  obtain ⟨x, y, rfl⟩ := containsSub_iff.mp h2
  obtain ⟨u, v, rfl⟩ := containsSub_iff.mp h1
  exact containsSub_iff.mpr ⟨x ++ u, v ++ y, by simp⟩

theorem containsSub_drop {p s : List Char} {n : Nat}
    (h : containsSub p (s.drop n) = true) : containsSub p s = true := by
  have hs : s = s.take n ++ s.drop n := by simp
  rw [hs]
  exact containsSub_appendL _ h

theorem isPre_append_split {p a b : List Char} (h : isPre p (a ++ b) = true) :
    isPre p a = true ∨ ∃ p2, p = a ++ p2 ∧ isPre p2 b = true := by
  induction a generalizing p with
  | nil => exact Or.inr ⟨p, rfl, by simpa using h⟩
  | cons x a2 ih =>
      cases p with
      | nil => exact Or.inl rfl
      | cons q p2 =>
          simp only [List.cons_append, isPre, Bool.and_eq_true, beq_iff_eq] at h
          obtain ⟨rfl, h2⟩ := h
          rcases ih h2 with h3 | ⟨p3, rfl, h4⟩
          · exact Or.inl (by simp [isPre, h3])
          · exact Or.inr ⟨p3, rfl, h4⟩

theorem containsSub_split {p a b : List Char}
    (h : containsSub p (a ++ b) = true) :
    containsSub p a = true ∨ containsSub p b = true ∨
      ∃ a2 b1, a2 ≠ [] ∧ b1 ≠ [] ∧ p = a2 ++ b1 ∧
        (∃ a1, a = a1 ++ a2) ∧ isPre b1 b = true := by
  induction a with
  | nil => exact Or.inr (Or.inl (by simpa using h))
  | cons c a2 ih =>
      rw [List.cons_append] at h
      simp only [containsSub, Bool.or_eq_true] at h
      rcases h with h | h
      · rw [show c :: (a2 ++ b) = (c :: a2) ++ b from rfl] at h
        rcases isPre_append_split h with h2 | ⟨p2, rfl, h3⟩
        · exact Or.inl (containsSub_of_isPre h2)
        · cases p2 with
          | nil =>
              refine Or.inl ?_
              have : containsSub ((c :: a2) ++ []) (c :: a2) = true := by
                simpa using containsSub_refl (c :: a2)
              exact this
          | cons q p3 =>
              exact Or.inr (Or.inr ⟨c :: a2, q :: p3, by simp, by simp, rfl,
                ⟨[], by simp⟩, h3⟩)
      · rcases ih h with h2 | h2 | ⟨x2, y1, hx, hy, hp, ⟨x1, hx1⟩, hb⟩
        · exact Or.inl (by simp [containsSub, h2])
        · exact Or.inr (Or.inl h2)
        · exact Or.inr (Or.inr ⟨x2, y1, hx, hy, hp, ⟨c :: x1, by simp [hx1]⟩, hb⟩)

/-! Unfolding and structural lemmas for `replaceAll` / `replaceFirst`. -/

theorem containsSub_cons_of {p l : List Char} (c : Char)
    (h : containsSub p l = true) : containsSub p (c :: l) = true := by
  simp [containsSub, h]

theorem notEmpty_of_ne {p : List Char} (hp : p ≠ []) : (!(p.isEmpty)) = true := by
  cases p with
  | nil => exact absurd rfl hp
  | cons a t => rfl

theorem replaceAll_id_of_not_contains {p r s : List Char}
    (h : containsSub p s = false) : replaceAll p r s = s := by
  induction s using replaceAllInduct p r with
  | case1 => exact replaceAll_nil p r
  | case2 c rest hcond ih =>
      simp only [Bool.and_eq_true] at hcond
      have : containsSub p (c :: rest) = true := containsSub_of_isPre hcond.1
      rw [this] at h
      exact absurd h (by simp)
  | case3 c rest hcond ih =>
      rw [replaceAll_cons_neg hcond]
      have h2 : containsSub p rest = false := by
        cases hv : containsSub p rest
        · rfl
        · rw [containsSub, hv] at h
          simp at h
      rw [ih h2]

theorem sublist_replaceAll (p a b s : List Char) :
    s.Sublist (replaceAll p (a ++ p ++ b) s) := by
  induction s using replaceAllInduct p (a ++ p ++ b) with
  | case1 => simp [replaceAll_nil]
  | case2 c rest hcond ih =>
      rw [replaceAll_cons_pos hcond]
      simp only [Bool.and_eq_true] at hcond
      obtain ⟨t, ht⟩ := isPre_iff.mp hcond.1
      rw [ht, List.drop_left] at ih ⊢
      calc p ++ t
          <+ p ++ (b ++ replaceAll p (a ++ p ++ b) t) := by
            exact List.Sublist.append_left
              (ih.trans (List.sublist_append_right b _)) p
        _ <+ a ++ (p ++ (b ++ replaceAll p (a ++ p ++ b) t)) :=
            List.sublist_append_right a _
        _ = a ++ p ++ b ++ replaceAll p (a ++ p ++ b) t := by simp
  | case3 c rest hcond ih =>
      rw [replaceAll_cons_neg hcond]
      exact ih.cons₂ c

theorem containsSub_nil_pat (s : List Char) : containsSub [] s = true := by
  cases s with
  | nil => rfl
  | cons c rest => simp [containsSub, isPre]

theorem isPre_false_of_cond {p : List Char} {c : Char} {rest : List Char}
    (hp : p ≠ []) (hcond : ¬((isPre p (c :: rest) && !(p.isEmpty)) = true)) :
    isPre p (c :: rest) = false := by
  cases hv : isPre p (c :: rest)
  · rfl
  · exact absurd (by simp [hv, notEmpty_of_ne hp]) hcond

theorem containsSub_rep {p r s : List Char} (hp : p ≠ [])
    (h : containsSub p s = true) :
    containsSub r (replaceAll p r s) = true := by
  induction s using replaceAllInduct p r with
  | case1 =>
      rw [containsSub] at h
      cases p with
      | nil => exact absurd rfl hp
      | cons a t => simp [isPre] at h
  | case2 c rest hcond ih =>
      rw [replaceAll_cons_pos hcond]
      exact containsSub_appendR _ (containsSub_refl r)
  | case3 c rest hcond ih =>
      rw [replaceAll_cons_neg hcond]
      rw [containsSub, isPre_false_of_cond hp hcond] at h
      simp only [Bool.false_or] at h
      exact containsSub_cons_of c (ih h)

theorem replaceAll_length_ge {p r s : List Char} (hlen : p.length ≤ r.length) :
    s.length ≤ (replaceAll p r s).length := by
  induction s using replaceAllInduct p r with
  | case1 => simp [replaceAll_nil]
  | case2 c rest hcond ih =>
      rw [replaceAll_cons_pos hcond]
      simp only [Bool.and_eq_true] at hcond
      have hple : p.length ≤ (c :: rest).length := isPre_length hcond.1
      have h1 : ((c :: rest).drop p.length).length = (c :: rest).length - p.length := by
        simp
      rw [List.length_append]
      omega
  | case3 c rest hcond ih =>
      rw [replaceAll_cons_neg hcond]
      simp only [List.length_cons]
      omega

theorem replaceAll_length_gt {p r s : List Char} (hp : p ≠ [])
    (hlen : p.length < r.length) (h : containsSub p s = true) :
    s.length < (replaceAll p r s).length := by
  induction s using replaceAllInduct p r with
  | case1 =>
      rw [containsSub] at h
      cases p with
      | nil => exact absurd rfl hp
      | cons a t => simp [isPre] at h
  | case2 c rest hcond ih =>
      rw [replaceAll_cons_pos hcond]
      simp only [Bool.and_eq_true] at hcond
      have hple : p.length ≤ (c :: rest).length := isPre_length hcond.1
      have htail := replaceAll_length_ge (p := p) (r := r)
        (s := (c :: rest).drop p.length) (Nat.le_of_lt hlen)
      have h1 : ((c :: rest).drop p.length).length = (c :: rest).length - p.length := by
        simp
      rw [List.length_append]
      omega
  | case3 c rest hcond ih =>
      rw [replaceAll_cons_neg hcond]
      rw [containsSub, isPre_false_of_cond hp hcond] at h
      simp only [Bool.false_or] at h
      have h3 := ih h
      simp only [List.length_cons]
      omega

theorem mem_replaceAll {p r s : List Char} {x : Char}
    (h : x ∈ replaceAll p r s) : x ∈ r ∨ x ∈ s := by
  induction s using replaceAllInduct p r with
  | case1 => rw [replaceAll_nil] at h; simp at h
  | case2 c rest hcond ih =>
      rw [replaceAll_cons_pos hcond] at h
      rcases List.mem_append.mp h with h2 | h2
      · exact Or.inl h2
      · rcases ih h2 with h3 | h3
        · exact Or.inl h3
        · exact Or.inr (List.drop_subset _ _ h3)
  | case3 c rest hcond ih =>
      rw [replaceAll_cons_neg hcond] at h
      rcases List.mem_cons.mp h with h2 | h2
      · exact Or.inr (h2 ▸ List.mem_cons_self c rest)
      · rcases ih h2 with h3 | h3
        · exact Or.inl h3
        · exact Or.inr (List.mem_cons_of_mem c h3)

theorem isPre_comparable {a b s : List Char} (ha : isPre a s = true)
    (hb : isPre b s = true) : isPre a b = true ∨ isPre b a = true := by
  induction s generalizing a b with
  | nil =>
      obtain ⟨t, ht⟩ := isPre_iff.mp ha
      cases a with
      | nil => exact Or.inl rfl
      | cons x xs => simp at ht
  | cons c rest ih =>
      cases a with
      | nil => exact Or.inl rfl
      | cons x xs =>
          cases b with
          | nil => exact Or.inr rfl
          | cons y ys =>
              simp only [isPre, Bool.and_eq_true, beq_iff_eq] at ha hb
              rcases ih ha.2 hb.2 with h | h
              · exact Or.inl (by simp [isPre, ha.1, hb.1, h])
              · exact Or.inr (by simp [isPre, ha.1, hb.1, h])

/-- Condition: the pattern or block `x` cannot begin strictly inside an
occurrence of `q` (no alignment of `x` with any proper tail of `q`). -/
def noInner (x q : List Char) : Prop :=
  ∀ j ∈ List.range q.length, 1 ≤ j →
    isPre (q.drop j) x = false ∧ isPre x (q.drop j) = false

/-- Condition: no occurrence of `q` can begin strictly inside `x` and extend
past its right end (every nonempty suffix of `x` that is a prefix of `q`
already contains all of `q`). -/
def noCrossOut (x q : List Char) : Prop :=
  ∀ t ∈ x.tails, t ≠ [] → isPre t q = true → q.length ≤ t.length

/-- Condition: no nonempty suffix of `x` is a prefix of `q` at all. -/
def noCrossTail (x q : List Char) : Prop :=
  ∀ t ∈ x.tails, t ≠ [] → isPre t q = false

instance noInnerDec (x q : List Char) : Decidable (noInner x q) := by
  unfold noInner
  exact List.decidableBAll _ _

instance noCrossOutDec (x q : List Char) : Decidable (noCrossOut x q) := by
  unfold noCrossOut
  exact List.decidableBAll _ _

instance noCrossTailDec (x q : List Char) : Decidable (noCrossTail x q) := by
  unfold noCrossTail
  exact List.decidableBAll _ _

theorem isPre_nil_left (s : List Char) : isPre [] s = true := by
  cases s with
  | nil => rfl
  | cons c rest => rfl

theorem isPre_nil_right {a : List Char} (h : isPre a [] = true) : a = [] := by
  cases a with
  | nil => rfl
  | cons x xs => simp [isPre] at h

theorem drop_ne_nil_lt {q : List Char} {j : Nat} (h : q.drop j ≠ []) :
    j < q.length := by
  by_contra hc
  push_neg at hc
  exact h (List.drop_eq_nil_of_le hc)

theorem drop_succ_of_drop_cons {q q2 : List Char} {j : Nat} {d : Char}
    (h : q.drop j = d :: q2) : q.drop (j + 1) = q2 := by
  have : q.drop (j + 1) = (q.drop j).drop 1 := by
    rw [List.drop_drop]
  rw [this, h]
  rfl

theorem isPre_tail_replaceAll {p r q : List Char} (hC : noInner p q) :
    ∀ (s : List Char) (j : Nat), 1 ≤ j → isPre (q.drop j) s = true →
      isPre (q.drop j) (replaceAll p r s) = true := by
  intro s
  induction s with
  | nil =>
      intro j hj hpre
      have he : q.drop j = [] := isPre_nil_right hpre
      rw [replaceAll_nil, he]
      exact isPre_nil_left []
  | cons c rest ih =>
      intro j hj hpre
      by_cases hcond : (isPre p (c :: rest) && !(p.isEmpty)) = true
      · cases hq : q.drop j with
        | nil => exact isPre_nil_left _
        | cons d q2 =>
            exfalso
            simp only [Bool.and_eq_true] at hcond
            have hlt : j < q.length := drop_ne_nil_lt (by rw [hq]; simp)
            have hcmp := isPre_comparable (hq ▸ hpre) hcond.1
            have hcc := hC j (List.mem_range.mpr hlt) hj
            rw [hq] at hcc
            rcases hcmp with hcm | hcm
            · rw [hcc.1] at hcm
              simp at hcm
            · rw [hcc.2] at hcm
              simp at hcm
      · rw [replaceAll_cons_neg hcond]
        cases hq : q.drop j with
        | nil => exact isPre_nil_left _
        | cons d q2 =>
            rw [hq] at hpre
            simp only [isPre, Bool.and_eq_true, beq_iff_eq] at hpre
            have h2 := ih (j + 1) (by omega)
              (by rw [drop_succ_of_drop_cons hq]; exact hpre.2)
            rw [drop_succ_of_drop_cons hq] at h2
            simp [isPre, hpre.1, h2]

theorem suffix_mem_tails {x a1 a2 : List Char} (h : x = a1 ++ a2) :
    a2 ∈ x.tails := by
  rw [List.mem_tails]
  exact ⟨a1, h.symm⟩

theorem containsSub_replaceAll_pres {p r q s : List Char} (hp : p ≠ [])
    (hpr : containsSub p r = true) (hA : noCrossOut p q) (hC : noInner p q)
    (h : containsSub q s = true) :
    containsSub q (replaceAll p r s) = true := by
  induction s using replaceAllInduct p r with
  | case1 => rw [replaceAll_nil]; exact h
  | case2 c rest hcond ih =>
      rw [replaceAll_cons_pos hcond]
      simp only [Bool.and_eq_true] at hcond
      obtain ⟨tail, htail⟩ := isPre_iff.mp hcond.1
      rw [htail] at h
      rcases containsSub_split h with h2 | h2 | ⟨a2, b1, ha2, hb1, hqe, ⟨a1, hpa⟩, hbp⟩
      · exact containsSub_appendR _ (containsSub_trans h2 hpr)
      · have hdrop : (c :: rest).drop p.length = tail := by
          rw [htail, List.drop_left]
        exact containsSub_appendL _ (ih (by rw [hdrop]; exact h2))
      · exfalso
        have := hA a2 (suffix_mem_tails hpa) ha2 (hqe ▸ isPre_self_append a2 b1)
        rw [hqe] at this
        simp only [List.length_append] at this
        have : b1.length = 0 := by omega
        exact hb1 (List.length_eq_zero.mp this)
  | case3 c rest hcond ih =>
      rw [replaceAll_cons_neg hcond]
      rw [containsSub, Bool.or_eq_true] at h
      rcases h with h2 | h2
      · cases q with
        | nil => exact containsSub_nil_pat _
        | cons x q2 =>
            simp only [isPre, Bool.and_eq_true, beq_iff_eq] at h2
            have h3 := isPre_tail_replaceAll (p := p) (r := r) hC rest 1
              (by omega) (by simpa using h2.2)
            simp only [List.drop_one, List.tail_cons] at h3
            rw [containsSub, Bool.or_eq_true]
            exact Or.inl (by simp [isPre, h2.1, h3])
      · exact containsSub_cons_of c (ih h2)

theorem isPre_tail_replaceAll_rev {p r q : List Char} (hF : noInner r q) :
    ∀ (s : List Char) (j : Nat), 1 ≤ j →
      isPre (q.drop j) (replaceAll p r s) = true → isPre (q.drop j) s = true := by
  intro s
  induction s with
  | nil =>
      intro j hj hpre
      rw [replaceAll_nil] at hpre
      rw [isPre_nil_right hpre]
      exact isPre_nil_left _
  | cons c rest ih =>
      intro j hj hpre
      by_cases hcond : (isPre p (c :: rest) && !(p.isEmpty)) = true
      · cases hq : q.drop j with
        | nil => exact hq ▸ isPre_nil_left _
        | cons d q2 =>
            exfalso
            rw [replaceAll_cons_pos hcond, hq] at hpre
            have hlt : j < q.length := drop_ne_nil_lt (by rw [hq]; simp)
            have hcc := hF j (List.mem_range.mpr hlt) hj
            rw [hq] at hcc
            rcases isPre_append_split hpre with h2 | ⟨p2, hp2, hp3⟩
            · rw [hcc.1] at h2
              exact absurd h2 (by simp)
            · have : isPre r (d :: q2) = true := hp2 ▸ isPre_self_append r p2
              rw [hcc.2] at this
              exact absurd this (by simp)
      · rw [replaceAll_cons_neg hcond] at hpre
        cases hq : q.drop j with
        | nil => exact hq ▸ isPre_nil_left _
        | cons d q2 =>
            rw [hq] at hpre
            simp only [isPre, Bool.and_eq_true, beq_iff_eq] at hpre
            have h2 := ih (j + 1) (by omega)
              (by rw [drop_succ_of_drop_cons hq]; exact hpre.2)
            rw [drop_succ_of_drop_cons hq] at h2
            simp [isPre, hpre.1, h2]

theorem containsSub_replaceAll_abs {p r q s : List Char}
    (hqr : containsSub q r = false) (hE : noCrossTail r q) (hF : noInner r q)
    (h : containsSub q s = false) :
    containsSub q (replaceAll p r s) = false := by
  induction s using replaceAllInduct p r with
  | case1 => rw [replaceAll_nil]; exact h
  | case2 c rest hcond ih =>
      rw [replaceAll_cons_pos hcond]
      have htail : containsSub q ((c :: rest).drop p.length) = false := by
        cases hv : containsSub q ((c :: rest).drop p.length)
        · rfl
        · rw [containsSub_drop hv] at h
          exact absurd h (by simp)
      have ihv := ih htail
      cases hv : containsSub q (r ++ replaceAll p r ((c :: rest).drop p.length))
      · rfl
      · exfalso
        rcases containsSub_split hv with h2 | h2 | ⟨a2, b1, ha2, hb1, hqe, ⟨a1, hra⟩, hbp⟩
        · rw [h2] at hqr; exact absurd hqr (by simp)
        · rw [h2] at ihv; exact absurd ihv (by simp)
        · have := hE a2 (suffix_mem_tails hra) ha2
          rw [hqe] at this
          rw [isPre_self_append a2 b1] at this
          exact absurd this (by simp)
  | case3 c rest hcond ih =>
      rw [replaceAll_cons_neg hcond]
      have hhead : isPre q (c :: rest) = false := by
        cases hv : isPre q (c :: rest)
        · rfl
        · rw [containsSub, hv] at h
          simp at h
      have htail : containsSub q rest = false := by
        cases hv : containsSub q rest
        · rfl
        · rw [containsSub, hv] at h
          simp at h
      have ihv := ih htail
      cases hv : containsSub q (c :: replaceAll p r rest)
      · rfl
      · exfalso
        rw [containsSub, Bool.or_eq_true] at hv
        rcases hv with hv | hv
        · cases q with
          | nil =>
              rw [containsSub_nil_pat] at htail
              exact absurd htail (by simp)
          | cons x q2 =>
              simp only [isPre, Bool.and_eq_true, beq_iff_eq] at hv
              have h3 := isPre_tail_replaceAll_rev (p := p) (r := r) hF rest 1
                (by omega) (by simpa using hv.2)
              simp only [List.drop_one, List.tail_cons] at h3
              rw [show isPre (x :: q2) (c :: rest) = true from by
                simp [isPre, hv.1, h3]] at hhead
              exact absurd hhead (by simp)
        · rw [hv] at ihv
          exact absurd ihv (by simp)

theorem replaceFirst_cons_pos {p r : List Char} {c : Char} {rest : List Char}
    (h : (isPre p (c :: rest) && !(p.isEmpty)) = true) :
    replaceFirst p r (c :: rest) = r ++ (c :: rest).drop p.length := by
  rw [replaceFirst]
  rw [if_pos h]

theorem replaceFirst_cons_neg {p r : List Char} {c : Char} {rest : List Char}
    (h : ¬((isPre p (c :: rest) && !(p.isEmpty)) = true)) :
    replaceFirst p r (c :: rest) = c :: replaceFirst p r rest := by
  rw [replaceFirst]
  rw [if_neg h]

theorem replaceFirst_id_of_not_contains {p r s : List Char}
    (h : containsSub p s = false) : replaceFirst p r s = s := by
  induction s with
  | nil => rfl
  | cons c rest ih =>
      have hn : isPre p (c :: rest) = false := by
        cases hv : isPre p (c :: rest)
        · rfl
        · rw [containsSub, hv] at h
          simp at h
      rw [replaceFirst_cons_neg (by simp [hn])]
      have h2 : containsSub p rest = false := by
        cases hv : containsSub p rest
        · rfl
        · rw [containsSub, hv] at h
          simp at h
      rw [ih h2]

theorem containsSub_replaceFirst_rep {p r q s : List Char} (hp : p ≠ [])
    (h : containsSub p s = true) (hqr : containsSub q r = true) :
    containsSub q (replaceFirst p r s) = true := by
  induction s with
  | nil =>
      rw [containsSub] at h
      cases p with
      | nil => exact absurd rfl hp
      | cons a t => simp [isPre] at h
  | cons c rest ih =>
      by_cases hcond : (isPre p (c :: rest) && !(p.isEmpty)) = true
      · rw [replaceFirst_cons_pos hcond]
        exact containsSub_appendR _ hqr
      · rw [replaceFirst_cons_neg hcond]
        rw [containsSub, isPre_false_of_cond hp hcond] at h
        simp only [Bool.false_or] at h
        exact containsSub_cons_of c (ih h)

theorem isPre_tail_replaceFirst {p r q : List Char} (hC : noInner p q) :
    ∀ (s : List Char) (j : Nat), 1 ≤ j → isPre (q.drop j) s = true →
      isPre (q.drop j) (replaceFirst p r s) = true := by
  intro s
  induction s with
  | nil =>
      intro j hj hpre
      have he : q.drop j = [] := isPre_nil_right hpre
      rw [he] at hpre ⊢
      exact isPre_nil_left _
  | cons c rest ih =>
      intro j hj hpre
      by_cases hcond : (isPre p (c :: rest) && !(p.isEmpty)) = true
      · cases hq : q.drop j with
        | nil => exact isPre_nil_left _
        | cons d q2 =>
            exfalso
            simp only [Bool.and_eq_true] at hcond
            have hlt : j < q.length := drop_ne_nil_lt (by rw [hq]; simp)
            have hcmp := isPre_comparable (hq ▸ hpre) hcond.1
            have hcc := hC j (List.mem_range.mpr hlt) hj
            rw [hq] at hcc
            rcases hcmp with hcm | hcm
            · rw [hcc.1] at hcm
              simp at hcm
            · rw [hcc.2] at hcm
              simp at hcm
      · rw [replaceFirst_cons_neg hcond]
        cases hq : q.drop j with
        | nil => exact isPre_nil_left _
        | cons d q2 =>
            rw [hq] at hpre
            simp only [isPre, Bool.and_eq_true, beq_iff_eq] at hpre
            have h2 := ih (j + 1) (by omega)
              (by rw [drop_succ_of_drop_cons hq]; exact hpre.2)
            rw [drop_succ_of_drop_cons hq] at h2
            simp [isPre, hpre.1, h2]

theorem containsSub_replaceFirst_pres {p r q s : List Char}
    (hpr : containsSub p r = true) (hA : noCrossOut p q) (hC : noInner p q)
    (h : containsSub q s = true) :
    containsSub q (replaceFirst p r s) = true := by
  induction s with
  | nil => exact h
  | cons c rest ih =>
      by_cases hcond : (isPre p (c :: rest) && !(p.isEmpty)) = true
      · rw [replaceFirst_cons_pos hcond]
        simp only [Bool.and_eq_true] at hcond
        obtain ⟨tail, htail⟩ := isPre_iff.mp hcond.1
        rw [htail] at h
        rcases containsSub_split h with h2 | h2 | ⟨a2, b1, ha2, hb1, hqe, ⟨a1, hpa⟩, hbp⟩
        · exact containsSub_appendR _ (containsSub_trans h2 hpr)
        · have hdrop : (c :: rest).drop p.length = tail := by
            rw [htail, List.drop_left]
          rw [hdrop]
          exact containsSub_appendL _ h2
        · exfalso
          have hlen := hA a2 (suffix_mem_tails hpa) ha2 (hqe ▸ isPre_self_append a2 b1)
          rw [hqe] at hlen
          simp only [List.length_append] at hlen
          have : b1.length = 0 := by omega
          exact hb1 (List.length_eq_zero.mp this)
      · rw [replaceFirst_cons_neg hcond]
        rw [containsSub, Bool.or_eq_true] at h
        rcases h with h2 | h2
        · cases q with
          | nil => exact containsSub_nil_pat _
          | cons x q2 =>
              simp only [isPre, Bool.and_eq_true, beq_iff_eq] at h2
              have h3 := isPre_tail_replaceFirst (p := p) (r := r) hC rest 1
                (by omega) (by simpa using h2.2)
              simp only [List.drop_one, List.tail_cons] at h3
              rw [containsSub, Bool.or_eq_true]
              exact Or.inl (by simp [isPre, h2.1, h3])
        · exact containsSub_cons_of c (ih h2)

theorem isPre_tail_replaceFirst_rev {p r q : List Char} (hF : noInner r q) :
    ∀ (s : List Char) (j : Nat), 1 ≤ j →
      isPre (q.drop j) (replaceFirst p r s) = true → isPre (q.drop j) s = true := by
  intro s
  induction s with
  | nil =>
      intro j hj hpre
      rw [isPre_nil_right hpre]
      exact isPre_nil_left _
  | cons c rest ih =>
      intro j hj hpre
      by_cases hcond : (isPre p (c :: rest) && !(p.isEmpty)) = true
      · cases hq : q.drop j with
        | nil => exact hq ▸ isPre_nil_left _
        | cons d q2 =>
            exfalso
            rw [replaceFirst_cons_pos hcond, hq] at hpre
            have hlt : j < q.length := drop_ne_nil_lt (by rw [hq]; simp)
            have hcc := hF j (List.mem_range.mpr hlt) hj
            rw [hq] at hcc
            rcases isPre_append_split hpre with h2 | ⟨p2, hp2, hp3⟩
            · rw [hcc.1] at h2
              exact absurd h2 (by simp)
            · have : isPre r (d :: q2) = true := hp2 ▸ isPre_self_append r p2
              rw [hcc.2] at this
              exact absurd this (by simp)
      · rw [replaceFirst_cons_neg hcond] at hpre
        cases hq : q.drop j with
        | nil => exact hq ▸ isPre_nil_left _
        | cons d q2 =>
            rw [hq] at hpre
            simp only [isPre, Bool.and_eq_true, beq_iff_eq] at hpre
            have h2 := ih (j + 1) (by omega)
              (by rw [drop_succ_of_drop_cons hq]; exact hpre.2)
            rw [drop_succ_of_drop_cons hq] at h2
            simp [isPre, hpre.1, h2]

theorem containsSub_replaceFirst_abs {p r q s : List Char}
    (hqr : containsSub q r = false) (hE : noCrossTail r q) (hF : noInner r q)
    (h : containsSub q s = false) :
    containsSub q (replaceFirst p r s) = false := by
  induction s with
  | nil => exact h
  | cons c rest ih =>
      have hhead : isPre q (c :: rest) = false := by
        cases hv : isPre q (c :: rest)
        · rfl
        · rw [containsSub, hv] at h
          simp at h
      have htail : containsSub q rest = false := by
        cases hv : containsSub q rest
        · rfl
        · rw [containsSub, hv] at h
          simp at h
      by_cases hcond : (isPre p (c :: rest) && !(p.isEmpty)) = true
      · rw [replaceFirst_cons_pos hcond]
        have htl : containsSub q ((c :: rest).drop p.length) = false := by
          cases hv : containsSub q ((c :: rest).drop p.length)
          · rfl
          · rw [containsSub_drop hv] at h
            exact absurd h (by simp)
        cases hv : containsSub q (r ++ (c :: rest).drop p.length)
        · rfl
        · exfalso
          rcases containsSub_split hv with h2 | h2 | ⟨a2, b1, ha2, hb1, hqe, ⟨a1, hra⟩, hbp⟩
          · rw [h2] at hqr
            exact absurd hqr (by simp)
          · rw [h2] at htl
            exact absurd htl (by simp)
          · have := hE a2 (suffix_mem_tails hra) ha2
            rw [hqe] at this
            rw [isPre_self_append a2 b1] at this
            exact absurd this (by simp)
      · rw [replaceFirst_cons_neg hcond]
        have ihv := ih htail
        cases hv : containsSub q (c :: replaceFirst p r rest)
        · rfl
        · exfalso
          rw [containsSub, Bool.or_eq_true] at hv
          rcases hv with hv | hv
          · cases q with
            | nil =>
                rw [containsSub_nil_pat] at htail
                exact absurd htail (by simp)
            | cons x q2 =>
                simp only [isPre, Bool.and_eq_true, beq_iff_eq] at hv
                have h3 := isPre_tail_replaceFirst_rev (p := p) (r := r) hF rest 1
                  (by omega) (by simpa using hv.2)
                simp only [List.drop_one, List.tail_cons] at h3
                rw [show isPre (x :: q2) (c :: rest) = true from by
                  simp [isPre, hv.1, h3]] at hhead
                exact absurd hhead (by simp)
          · rw [hv] at ihv
            exact absurd ihv (by simp)

/-! Lemmas about the `'>'` split / join pair. -/

theorem splitGt_cons_gt (rest : List Char) :
    splitGt ('>' :: rest) = [] :: splitGt rest := by
  rw [splitGt]
  simp

theorem splitGt_cons_ne {c : Char} (rest : List Char) (hgt : ¬(c == '>') = true)
    {h : List Char} {t : List (List Char)} (hsplit : splitGt rest = h :: t) :
    splitGt (c :: rest) = (c :: h) :: t := by
  rw [splitGt]
  rw [if_neg hgt, hsplit]

theorem splitGt_ne_nil (s : List Char) : splitGt s ≠ [] := by
  induction s using splitGt.induct with
  | case1 => simp [splitGt]
  | case2 c rest hgt ih =>
      have hc : c = '>' := by simpa using hgt
      rw [hc, splitGt_cons_gt]
      simp
  | case3 c rest hgt hnil ih => exact absurd hnil ih
  | case4 c rest hgt h t hsplit ih =>
      rw [splitGt_cons_ne rest hgt hsplit]
      simp

theorem joinGt_cons_head (c : Char) (h : List Char) (t : List (List Char)) :
    joinGt ((c :: h) :: t) = c :: joinGt (h :: t) := by
  cases t with
  | nil => rfl
  | cons z t2 => rfl

theorem joinGt_splitGt (s : List Char) : joinGt (splitGt s) = s := by
  induction s using splitGt.induct with
  | case1 => rfl
  | case2 c rest hgt ih =>
      have hc : c = '>' := by simpa using hgt
      rw [hc, splitGt_cons_gt]
      cases hsp : splitGt rest with
      | nil => exact absurd hsp (splitGt_ne_nil rest)
      | cons y t =>
          rw [show joinGt ([] :: y :: t) = '>' :: joinGt (y :: t) from rfl]
          rw [← hsp, ih]
  | case3 c rest hgt hnil ih => exact absurd hnil (splitGt_ne_nil rest)
  | case4 c rest hgt h t hsplit ih =>
      rw [splitGt_cons_ne rest hgt hsplit]
      rw [joinGt_cons_head]
      rw [hsplit] at ih
      rw [ih]

theorem splitGt_no_gt {s : List Char} : ∀ c ∈ splitGt s, '>' ∉ c := by
  induction s using splitGt.induct with
  | case1 =>
      intro c hc
      rw [splitGt] at hc
      simp at hc
      simp [hc]
  | case2 c rest hgt ih =>
      have hc : c = '>' := by simpa using hgt
      subst hc
      intro d hd
      rw [splitGt_cons_gt] at hd
      rcases List.mem_cons.mp hd with rfl | hd
      · simp
      · exact ih d hd
  | case3 c rest hgt hnil ih => exact absurd hnil (splitGt_ne_nil rest)
  | case4 c rest hgt h t hsplit ih =>
      intro d hd
      rw [splitGt_cons_ne rest hgt hsplit] at hd
      rcases List.mem_cons.mp hd with rfl | hd
      · intro hmem
        rcases List.mem_cons.mp hmem with hc | hc
        · rw [hc] at hgt
          simp at hgt
        · exact ih h (by rw [hsplit]; exact List.mem_cons_self h t) hc
      · exact ih d (by rw [hsplit]; exact List.mem_cons_of_mem h hd)

theorem splitGt_single {x : List Char} (hx : '>' ∉ x) : splitGt x = [x] := by
  induction x with
  | nil => rfl
  | cons c x2 ih =>
      have hc : ¬(c == '>') = true := by
        simp only [beq_iff_eq]
        intro hcc
        exact hx (hcc ▸ List.mem_cons_self c x2)
      rw [splitGt_cons_ne x2 hc (ih (fun hm => hx (List.mem_cons_of_mem c hm)))]

theorem splitGt_append {a s : List Char} {h : List Char} {t : List (List Char)}
    (ha : '>' ∉ a) (hs : splitGt s = h :: t) :
    splitGt (a ++ s) = (a ++ h) :: t := by
  induction a with
  | nil => simpa using hs
  | cons c a2 ih =>
      have hc : ¬(c == '>') = true := by
        simp only [beq_iff_eq]
        intro hcc
        exact ha (hcc ▸ List.mem_cons_self c a2)
      rw [List.cons_append]
      rw [splitGt_cons_ne _ hc (ih (fun hm => ha (List.mem_cons_of_mem c hm)))]
      simp

theorem splitGt_joinGt {L : List (List Char)} (hL : L ≠ [])
    (hgt : ∀ c ∈ L, '>' ∉ c) : splitGt (joinGt L) = L := by
  induction L with
  | nil => exact absurd rfl hL
  | cons x L2 ih =>
      cases L2 with
      | nil =>
          rw [show joinGt [x] = x from rfl]
          exact splitGt_single (hgt x (List.mem_cons_self x []))
      | cons y t =>
          rw [show joinGt (x :: y :: t) = x ++ '>' :: joinGt (y :: t) from rfl]
          have hrec : splitGt (joinGt (y :: t)) = y :: t :=
            ih (by simp) (fun c hc => hgt c (List.mem_cons_of_mem x hc))
          have hsp : splitGt ('>' :: joinGt (y :: t)) = [] :: (y :: t) := by
            rw [splitGt_cons_gt, hrec]
          have hres := splitGt_append (a := x) (hgt x (List.mem_cons_self x _)) hsp
          rw [hres]
          simp

theorem joinGt_sublist {L1 L2 : List (List Char)}
    (h : List.Forall₂ List.Sublist L1 L2) : (joinGt L1).Sublist (joinGt L2) := by
  induction h with
  | nil => exact List.Sublist.refl []
  | cons h1 h2 ih =>
      rename_i a b L1' L2'
      cases h2 with
      | nil => exact h1
      | cons h3 h4 =>
          rename_i x y L1x L2x
          rw [show joinGt (a :: x :: L1x) = a ++ '>' :: joinGt (x :: L1x) from rfl]
          rw [show joinGt (b :: y :: L2x) = b ++ '>' :: joinGt (y :: L2x) from rfl]
          exact List.Sublist.append h1 (List.Sublist.cons₂ '>' ih)

/-! Lemmas about dictionary lookups on association lists. -/

theorem lookupName_append (m1 m2 : List (Nat × List Char)) (j : Nat) :
    lookupName (m1 ++ m2) j =
      match lookupName m1 j with
      | some v => some v
      | none => lookupName m2 j := by
  unfold lookupName
  rw [List.find?_append]
  cases List.find? (fun e => e.1 == j) m1 with
  | none => simp [Option.or]
  | some e => simp [Option.or]

theorem lookupName_append_ne {m : List (Nat × List Char)} {k j : Nat}
    {v : List Char} (h : ¬(j = k)) :
    lookupName (m ++ [(k, v)]) j = lookupName m j := by
  rw [lookupName_append]
  cases hv : lookupName m j with
  | some w => rfl
  | none =>
      show lookupName [(k, v)] j = none
      unfold lookupName
      simp only [List.find?]
      have : ((k, v).1 == j) = false := by
        simp only [beq_eq_false_iff_ne]
        exact fun hc => h hc.symm
      rw [this]

theorem lookupName_append_new {m : List (Nat × List Char)} {k : Nat}
    {v : List Char} (h : lookupName m k = none) :
    lookupName (m ++ [(k, v)]) k = some v := by
  rw [lookupName_append, h]
  show lookupName [(k, v)] k = some v
  unfold lookupName
  simp [List.find?]

theorem lookupName_mem {m : List (Nat × List Char)} {i : Nat} {v : List Char}
    (h : lookupName m i = some v) : (i, v) ∈ m := by
  unfold lookupName at h
  cases hf : List.find? (fun e => e.1 == i) m with
  | none => rw [hf] at h; simp at h
  | some e =>
      rw [hf] at h
      simp only [Option.some.injEq] at h
      have hmem := List.mem_of_find?_eq_some hf
      have hkey : e.1 = i := by
        have := List.find?_some hf
        simpa using this
      have : e = (i, v) := by
        cases e with
        | mk a b =>
            simp only at hkey h
            rw [hkey, h]
      rw [this] at hmem
      exact hmem

/-! Behaviour of the ISO valves name-scraping loop. -/

theorem isoScan_nil (m : List (Nat × List Char)) (i0 : Nat) :
    isoScan m i0 [] = m := rfl

theorem isoScan_cons_none (m : List (Nat × List Char)) (i0 : Nat)
    (rest : List (Option (List Char))) :
    isoScan m i0 (none :: rest) = isoScan m (i0 + 1) rest := rfl

theorem isoScan_cons_adopt {m : List (Nat × List Char)} {i0 : Nat} {t : List Char}
    (rest : List (Option (List Char))) (h1 : isoValveTitle t = true)
    (h2 : lookupName m i0 = none) :
    isoScan m i0 (some t :: rest) = isoScan (m ++ [(i0, t)]) (i0 + 1) rest := by
  rw [isoScan]
  simp [h1, h2]

theorem isoScan_cons_skip_title {m : List (Nat × List Char)} {i0 : Nat}
    {t : List Char} (rest : List (Option (List Char)))
    (h1 : isoValveTitle t = false) :
    isoScan m i0 (some t :: rest) = isoScan m (i0 + 1) rest := by
  rw [isoScan]
  simp [h1]

theorem isoScan_cons_skip_named {m : List (Nat × List Char)} {i0 : Nat}
    {t : List Char} (rest : List (Option (List Char)))
    (h2 : ¬(lookupName m i0 = none)) :
    isoScan m i0 (some t :: rest) = isoScan m (i0 + 1) rest := by
  rw [isoScan]
  by_cases h1 : isoValveTitle t = true
  · simp [h1, h2]
  · simp [h1]

theorem isoScan_stable {titles : List (Option (List Char))} :
    ∀ (m : List (Nat × List Char)) (i0 j : Nat), j < i0 →
      lookupName (isoScan m i0 titles) j = lookupName m j := by
  induction titles with
  | nil => intro m i0 j hj; rfl
  | cons ot rest ih =>
      intro m i0 j hj
      cases ot with
      | none =>
          rw [isoScan_cons_none]
          exact ih m (i0 + 1) j (by omega)
      | some t =>
          by_cases hvt : isoValveTitle t = true
          · by_cases hlk : lookupName m i0 = none
            · rw [isoScan_cons_adopt rest hvt hlk]
              rw [ih (m ++ [(i0, t)]) (i0 + 1) j (by omega)]
              exact lookupName_append_ne (by omega)
            · rw [isoScan_cons_skip_named rest hlk]
              exact ih m (i0 + 1) j (by omega)
          · rw [isoScan_cons_skip_title rest (by simpa using hvt)]
            exact ih m (i0 + 1) j (by omega)

theorem isoScan_get {titles : List (Option (List Char))} :
    ∀ (m : List (Nat × List Char)) (i0 i : Nat) (t : List Char),
      titles.get? i = some (some t) →
      lookupName (isoScan m i0 titles) (i0 + i) =
        if isoValveTitle t = true ∧ lookupName m (i0 + i) = none
        then some t else lookupName m (i0 + i) := by
  induction titles with
  | nil => intro m i0 i t ht; simp at ht
  | cons ot rest ih =>
      intro m i0 i t ht
      cases i with
      | zero =>
          have hot : ot = some t := by simpa using ht
          subst hot
          by_cases hvt : isoValveTitle t = true
          · by_cases hlk : lookupName m (i0 + 0) = none
            · have hlk0 : lookupName m i0 = none := by simpa using hlk
              rw [isoScan_cons_adopt rest hvt hlk0]
              rw [isoScan_stable (m ++ [(i0, t)]) (i0 + 1) (i0 + 0) (by omega)]
              rw [if_pos ⟨hvt, hlk⟩]
              have := lookupName_append_new (m := m) (v := t) hlk0
              simpa using this
            · have hlk0 : ¬(lookupName m i0 = none) := by simpa using hlk
              rw [isoScan_cons_skip_named rest hlk0]
              rw [isoScan_stable m (i0 + 1) (i0 + 0) (by omega)]
              rw [if_neg (fun hc => hlk hc.2)]
          · rw [isoScan_cons_skip_title rest (by simpa using hvt)]
            rw [isoScan_stable m (i0 + 1) (i0 + 0) (by omega)]
            rw [if_neg (fun hc => hvt hc.1)]
      | succ j =>
          have hrest : rest.get? j = some (some t) := by simpa using ht
          have harith : i0 + (j + 1) = (i0 + 1) + j := by omega
          cases ot with
          | none =>
              rw [isoScan_cons_none, harith]
              exact ih m (i0 + 1) j t hrest
          | some t2 =>
              by_cases hvt : isoValveTitle t2 = true
              · by_cases hlk : lookupName m i0 = none
                · rw [isoScan_cons_adopt rest hvt hlk, harith]
                  rw [ih (m ++ [(i0, t2)]) (i0 + 1) j t hrest]
                  rw [lookupName_append_ne (m := m) (k := i0) (v := t2) (by omega)]
                · rw [isoScan_cons_skip_named rest hlk, harith]
                  exact ih m (i0 + 1) j t hrest
              · rw [isoScan_cons_skip_title rest (by simpa using hvt), harith]
                exact ih m (i0 + 1) j t hrest

/-! Behaviour of the PIP fittings name setup. -/

/-- All values of a name table are nonempty strings. -/
def valsNonempty (m : List (Nat × List Char)) : Prop :=
  ∀ e ∈ m, e.2 ≠ []

theorem valsNonempty_append {m : List (Nat × List Char)} {k : Nat}
    {v : List Char} (hm : valsNonempty m) (hv : v ≠ []) :
    valsNonempty (m ++ [(k, v)]) := by
  intro e he
  rcases List.mem_append.mp he with h | h
  · exact hm e h
  · have : e = (k, v) := by simpa using h
    rw [this]
    exact hv

theorem pipFitScan_vals {titles : List (Option (List Char))} :
    ∀ (m : List (Nat × List Char)) (n i0 : Nat), valsNonempty m →
      (∀ ot ∈ titles, ∀ t, ot = some t → t ≠ []) →
      valsNonempty (pipFitScan m n i0 titles) := by
  induction titles with
  | nil => intro m n i0 hm ht; exact hm
  | cons ot rest ih =>
      intro m n i0 hm ht
      have htr : ∀ ot2 ∈ rest, ∀ t, ot2 = some t → t ≠ [] :=
        fun ot2 h2 t h3 => ht ot2 (List.mem_cons_of_mem ot h2) t h3
      cases ot with
      | none => exact ih m n (i0 + 1) hm htr
      | some t =>
          rw [show pipFitScan m n i0 (some t :: rest) =
            pipFitScan
              (if lookupName m i0 = none ∧ i0 < n then
                (if pipFitTitle t then m ++ [(i0, t)] else m) else m)
              n (i0 + 1) rest from rfl]
          by_cases hc : lookupName m i0 = none ∧ i0 < n
          · rw [if_pos hc]
            by_cases hf : pipFitTitle t = true
            · rw [if_pos hf]
              refine ih _ n (i0 + 1) ?_ htr
              exact valsNonempty_append hm
                (ht (some t) (List.mem_cons_self _ _) t rfl)
            · rw [if_neg hf]
              exact ih m n (i0 + 1) hm htr
          · rw [if_neg hc]
            exact ih m n (i0 + 1) hm htr

theorem placeholder_ne_nil (i : Nat) :
    ("PIP Fitting ").toList ++ (toString (i + 1)).toList ≠ [] := by
  intro hcon
  rw [List.append_eq_nil] at hcon
  exact absurd hcon.1 (by decide)

theorem pipFitFillStep_vals {m : List (Nat × List Char)} (i : Nat)
    (hm : valsNonempty m) : valsNonempty (pipFitFillStep m i) := by
  unfold pipFitFillStep
  by_cases hc : lookupName m i = none
  · rw [if_pos hc]
    exact valsNonempty_append hm (placeholder_ne_nil i)
  · rw [if_neg hc]
    exact hm

theorem foldl_fillStep_vals :
    ∀ (l : List Nat) (m : List (Nat × List Char)), valsNonempty m →
      valsNonempty (List.foldl pipFitFillStep m l) := by
  intro l
  induction l with
  | nil => intro m hm; exact hm
  | cons i rest ih =>
      intro m hm
      exact ih (pipFitFillStep m i) (pipFitFillStep_vals i hm)

theorem pipFitFillStep_keeps {m : List (Nat × List Char)} {j : Nat}
    {v : List Char} (h : lookupName m j = some v) (i : Nat) :
    lookupName (pipFitFillStep m i) j = some v := by
  unfold pipFitFillStep
  by_cases hc : lookupName m i = none
  · rw [if_pos hc]
    have hne : ¬(j = i) := by
      intro he
      rw [he] at h
      rw [h] at hc
      exact absurd hc (by simp)
    rw [lookupName_append_ne hne]
    exact h
  · rw [if_neg hc]
    exact h

theorem foldl_fillStep_keeps :
    ∀ (l : List Nat) (m : List (Nat × List Char)) (j : Nat) (v : List Char),
      lookupName m j = some v →
      lookupName (List.foldl pipFitFillStep m l) j = some v := by
  intro l
  induction l with
  | nil => intro m j v h; exact h
  | cons i rest ih =>
      intro m j v h
      exact ih (pipFitFillStep m i) j v (pipFitFillStep_keeps h i)

theorem pipFitFillStep_covers (m : List (Nat × List Char)) (i : Nat) :
    ¬(lookupName (pipFitFillStep m i) i = none) := by
  unfold pipFitFillStep
  by_cases hc : lookupName m i = none
  · rw [if_pos hc]
    rw [lookupName_append_new hc]
    simp
  · rw [if_neg hc]
    exact hc

theorem fold_range_covers :
    ∀ (n : Nat) (m : List (Nat × List Char)) (i : Nat), i < n →
      ¬(lookupName (List.foldl pipFitFillStep m (List.range n)) i = none) := by
  intro n
  induction n with
  | zero => intro m i hi; omega
  | succ n ih =>
      intro m i hi
      rw [List.range_succ, List.foldl_append]
      simp only [List.foldl]
      by_cases hin : i < n
      · have := ih m i hin
        cases hv : lookupName (List.foldl pipFitFillStep m (List.range n)) i with
        | none => exact absurd hv this
        | some v =>
            rw [pipFitFillStep_keeps hv n]
            simp
      · have hieq : i = n := by omega
        rw [hieq]
        exact pipFitFillStep_covers _ n

theorem containsSub_map_lower {p s : List Char} (h : containsSub p s = true) :
    containsSub (p.map Char.toLower) (s.map Char.toLower) = true := by
  obtain ⟨a, b, rfl⟩ := containsSub_iff.mp h
  refine containsSub_iff.mpr ⟨a.map Char.toLower, b.map Char.toLower, ?_⟩
  simp

theorem isoValveTitle_lower (t : List Char) :
    isoValveTitle t = containsSub (("valve").toList) (t.map Char.toLower) := by
  unfold isoValveTitle
  cases hv : containsSub (("Valve").toList) t with
  | false => simp
  | true =>
      have h2 := containsSub_map_lower hv
      rw [show (("Valve").toList).map Char.toLower = ("valve").toList from by decide] at h2
      rw [h2]
      rfl

/-! ### Claims -/

/-- C9: an extractor run exits with code 0 on success and code 1 exactly when
the JSON catalog cannot be loaded, and a load failure aborts the run before
any symbol is extracted (the extracted count of `isoRun` is `none`). -/
theorem c9_exit_codes (loaded : Option (List (Nat × List Char))) :
    (isoMainExit loaded = 0 ∨ isoMainExit loaded = 1) ∧
    (isoMainExit loaded = 1 ↔ loaded = none) ∧
    (loaded = none → (isoRun loaded).2 = none) := by
  cases loaded with
  | none =>
      refine ⟨Or.inr rfl, ?_, ?_⟩
      · simp [isoMainExit, isoRun]
      · intro h
        rfl
  | some cat =>
      refine ⟨Or.inl rfl, ?_, ?_⟩
      · simp [isoMainExit, isoRun]
      · intro h
        simp at h

/-- Witness for C9 at a concrete failed load. -/
theorem c9_exit_codes_witness :
    isoMainExit (none : Option (List (Nat × List Char))) = 1 ∧
      (isoRun (none : Option (List (Nat × List Char)))).2 = none :=
  ⟨((c9_exit_codes none).2.1).mpr rfl, (c9_exit_codes none).2.2 rfl⟩

/-- C10: a scraped title is adopted as a display name exactly when it
contains "valve" case-insensitively (the code's test `'valve' in
title.lower() or 'Valve' in title` is equivalent to lower-case containment)
and the index has no predefined name; a title failing the filter is never
used, and the index then keeps exactly its predefined lookup (possibly
none); and a valve-passing title at an index that already has a predefined
entry is NOT adopted — the predefined name wins and the lookup is
unchanged. -/
theorem c10_title_adoption (titles : List (Option (List Char))) (i : Nat)
    (t : List Char) (ht : titles.get? i = some (some t)) :
    (isoValveTitle t = containsSub (("valve").toList) (t.map Char.toLower)) ∧
    (isoValveTitle t = false →
      lookupName (isoSetupNames titles) i = lookupName predefISO i) ∧
    (isoValveTitle t = true → lookupName predefISO i = none →
      lookupName (isoSetupNames titles) i = some t) ∧
    (isoValveTitle t = true → lookupName predefISO i ≠ none →
      lookupName (isoSetupNames titles) i = lookupName predefISO i) := by
  have hbase := @isoScan_get titles predefISO 0 i t ht
  simp only [Nat.zero_add] at hbase
  refine ⟨isoValveTitle_lower t, ?_, ?_, ?_⟩
  · intro hvt
    unfold isoSetupNames
    rw [hbase, if_neg]
    intro hc
    rw [hvt] at hc
    exact absurd hc.1 (by simp)
  · intro hvt hnone
    unfold isoSetupNames
    rw [hbase, if_pos ⟨hvt, hnone⟩]
  · intro hvt hpred
    unfold isoSetupNames
    rw [hbase, if_neg]
    intro hc
    exact hpred hc.2

/-- Witness for C10: a valve title scraped for index 24 (beyond the
predefined table) is adopted, and a valve title scraped for index 0 is not
adopted — the predefined "Gate Valve" lookup is kept. -/
theorem c10_title_adoption_witness :
    lookupName (isoSetupNames (List.replicate 24 none ++
      [some (("special valve").toList)])) 24 =
        some (("special valve").toList) ∧
    lookupName (isoSetupNames [some (("My Valve").toList)]) 0 =
      lookupName predefISO 0 :=
  ⟨(c10_title_adoption (List.replicate 24 none ++
      [some (("special valve").toList)])
      24 (("special valve").toList) (by decide)).2.2.1 (by decide) (by decide),
   (c10_title_adoption [some (("My Valve").toList)] 0 (("My Valve").toList)
      (by decide)).2.2.2 (by decide) (by decide)⟩

/-- C7 counterexample: the ISO valves extractor has no placeholder fallback.
With no scraped titles, index 24 of a catalog ends up with no name at all
(while index 0 is named from the predefined table); even a scraped non-valve
title for index 24 is discarded and the index stays nameless. -/
theorem c7_counterexample :
    lookupName (isoSetupNames []) 24 = none ∧
    lookupName (isoSetupNames []) 0 = some (("Gate Valve").toList) ∧
    lookupName (isoSetupNames (List.replicate 24 none ++
      [some (("Widget").toList)])) 24 = none := by
  refine ⟨by decide, by decide, ?_⟩
  decide

/-- C7 amended: in the PIP fittings extractor the invariant does hold — for a
catalog with `n` symbols, after name setup every index below `n` resolves to
exactly one non-empty name (predefined entry, scraped title, or the
placeholder `"PIP Fitting <i+1>"`), provided the scraped titles are non-empty
(the scraping regex `<title>([^<]+)</title>` only produces non-empty
titles). -/
theorem c7_amended_pip_names (titles : List (Option (List Char))) (n i : Nat)
    (hi : i < n)
    (htitles : ∀ ot ∈ titles, ∀ t, ot = some t → t ≠ []) :
    ∃ v, lookupName (pipFitNames titles n) i = some v ∧ v ≠ [] := by
  have hvals : valsNonempty (pipFitNames titles n) := by
    refine foldl_fillStep_vals _ _ ?_
    refine pipFitScan_vals _ n 0 ?_ htitles
    intro e he
    revert he
    revert e
    decide
  have hcov := fold_range_covers n (pipFitScan predefPIPFit n 0 titles) i hi
  cases hv : lookupName (pipFitNames titles n) i with
  | none => exact absurd hv hcov
  | some v =>
      exact ⟨v, rfl, hvals (i, v) (lookupName_mem hv)⟩

/-- Witness for C7's amended statement at a concrete catalog size. -/
theorem c7_amended_pip_names_witness :
    ∃ v, lookupName (pipFitNames [] 40) 39 = some v ∧ v ≠ [] :=
  c7_amended_pip_names [] 40 39 (by decide) (by simp)

/-! C8 support: the fixup stage only inserts characters. -/

theorem sublist_replaceAll_of_eq {p r : List Char} (a b : List Char)
    (hr : r = a ++ p ++ b) (s : List Char) : s.Sublist (replaceAll p r s) := by
  rw [hr]
  exact sublist_replaceAll p a b s

theorem sublist_replaceAll_insR (p ins s : List Char) :
    s.Sublist (replaceAll p (p ++ ins) s) :=
  sublist_replaceAll_of_eq [] ins (by simp) s

theorem sublist_firstTagFillNone :
    ∀ (tags : List (List Char)) (c : List Char),
      c.Sublist (firstTagFillNone tags c) := by
  intro tags
  induction tags with
  | nil => intro c; exact List.Sublist.refl c
  | cons t rest ih =>
      intro c
      rw [firstTagFillNone]
      by_cases hc : containsSub t c = true
      · rw [if_pos hc]
        exact sublist_replaceAll_insR t fillNone c
      · rw [if_neg hc]
        exact ih c

theorem sublist_isoStroke (c : List Char) : c.Sublist (isoStroke c) := by
  unfold isoStroke
  by_cases h1 : (containsSub swEq c && !(containsSub sEq c)) = true
  · rw [if_pos h1]
    by_cases h2 : (!(containsSub redStroke c)) = true
    · rw [if_pos h2]
      exact sublist_replaceAll_of_eq (("stroke=\"#000000\" ").toList) []
        (by decide) c
    · rw [if_neg h2]
  · rw [if_neg h1]

theorem sublist_isoFillStage (c : List Char) : c.Sublist (isoFillStage c) := by
  unfold isoFillStage
  by_cases h1 : (!(containsSub fillEq c) &&
      (containsSub sEq c || containsSub swEq c)) = true
  · rw [if_pos h1]
    by_cases h2 : containsSub redStroke c = true
    · rw [if_pos h2]
      exact sublist_firstTagFillNone shapeTags c
    · rw [if_neg h2]
      by_cases h3 : containsSub pathTag c = true
      · rw [if_pos h3]
        by_cases h4 : (c.contains 'Z' || c.contains 'z') = true
        · rw [if_pos h4]
          exact sublist_replaceAll_insR pathTag fillWhite c
        · rw [if_neg h4]
          exact sublist_replaceAll_insR pathTag fillNone c
      · rw [if_neg h3]
        by_cases h5 : containsSub polygonTag c = true
        · rw [if_pos h5]
          exact sublist_replaceAll_insR polygonTag fillWhite c
        · rw [if_neg h5]
          by_cases h6 : (containsSub circleTag c || containsSub ellipseTag c) = true
          · rw [if_pos h6]
            exact (sublist_replaceAll_insR circleTag fillWhite c).trans
              (sublist_replaceAll_insR ellipseTag fillWhite _)
          · rw [if_neg h6]
            by_cases h7 : containsSub rectTag c = true
            · rw [if_pos h7]
              exact sublist_replaceAll_insR rectTag fillWhite c
            · rw [if_neg h7]
              by_cases h8 : containsSub lineTag c = true
              · rw [if_pos h8]
                exact sublist_replaceAll_insR lineTag fillNone c
              · rw [if_neg h8]
                exact sublist_firstTagFillNone shapeTags c
  · rw [if_neg h1]

theorem sublist_isoFixLine (c : List Char) : c.Sublist (isoFixLine c) := by
  unfold isoFixLine
  by_cases h : isShape c = true
  · rw [if_pos h]
    exact (sublist_isoStroke c).trans (sublist_isoFillStage (isoStroke c))
  · rw [if_neg h]

theorem forall2_sublist_map {f : List Char → List Char}
    (hf : ∀ c : List Char, List.Sublist c (f c)) :
    ∀ L : List (List Char), List.Forall₂ List.Sublist L (L.map f) := by
  intro L
  induction L with
  | nil => exact List.Forall₂.nil
  | cons x rest ih => exact List.Forall₂.cons (hf x) ih

/-- C8: the shape-fixup pass is insert-only.  Every input string survives as
an in-order subsequence of the output of the fixup stage (so no existing
attribute text is deleted or reordered), and every `'>'`-delimited chunk
without a shape tag passes through the per-chunk fixup entirely unchanged. -/
theorem c8_fixups_insert_only (s : List Char) :
    s.Sublist (isoFixShapes s) ∧
      ∀ c ∈ splitGt s, isShape c = false → isoFixLine c = c := by
  constructor
  · have h1 : s = joinGt (splitGt s) := (joinGt_splitGt s).symm
    nth_rewrite 1 [h1]
    unfold isoFixShapes
    exact joinGt_sublist (forall2_sublist_map sublist_isoFixLine (splitGt s))
  · intro c hc hshape
    unfold isoFixLine
    rw [hshape]
    simp

/-- Witness for C8 at a concrete fragment and its non-shape chunk. -/
theorem c8_fixups_insert_only_witness :
    (("<svg>x").toList).Sublist (isoFixShapes (("<svg>x").toList)) ∧
      isoFixLine (("<svg").toList) = ("<svg").toList :=
  ⟨(c8_fixups_insert_only (("<svg>x").toList)).1,
   (c8_fixups_insert_only (("<svg>x").toList)).2 (("<svg").toList)
     (by decide) (by decide)⟩

/-! Support for the fill-policy claims: pattern-transparency of the
insert-only rewrites. -/

/-- Fill-attribute texts searched for in outputs. -/
def fillNoneQ : List Char := ("fill=\"none\"").toList

def fillWhiteQ : List Char := ("fill=\"white\"").toList

def fillBlackQ : List Char := ("fill=\"#000000\"").toList

/-- A `replaceAll p r` rewrite neither creates nor destroys occurrences of
`q` when these (decidable) conditions hold. -/
def replaceAllTransparent (p r q : List Char) : Prop :=
  containsSub p r = true ∧ noCrossOut p q ∧ noInner p q ∧
  containsSub q r = false ∧ noCrossTail r q ∧ noInner r q

instance replaceAllTransparentDec (p r q : List Char) :
    Decidable (replaceAllTransparent p r q) := by
  unfold replaceAllTransparent
  infer_instance

theorem containsSub_replaceAll_eq {p r q : List Char} (hp : p ≠ [])
    (ht : replaceAllTransparent p r q) (s : List Char) :
    containsSub q (replaceAll p r s) = containsSub q s := by
  cases hv : containsSub q s
  · exact containsSub_replaceAll_abs ht.2.2.2.1 ht.2.2.2.2.1 ht.2.2.2.2.2 hv
  · exact containsSub_replaceAll_pres hp ht.1 ht.2.1 ht.2.2.1 hv

theorem mem_replaceAll_iff {p r : List Char} (a b : List Char)
    (hr : r = a ++ p ++ b) {s : List Char} {x : Char} (hx : x ∉ r) :
    x ∈ replaceAll p r s ↔ x ∈ s := by
  constructor
  · intro h
    rcases mem_replaceAll h with h2 | h2
    · exact absurd h2 hx
    · exact h2
  · intro h
    exact (sublist_replaceAll_of_eq a b hr s).subset h

theorem contains_replaceAll_eq {p r : List Char} (a b : List Char)
    (hr : r = a ++ p ++ b) {x : Char} (hx : x ∉ r) (s : List Char) :
    (replaceAll p r s).contains x = s.contains x := by
  have hiff := mem_replaceAll_iff a b hr (s := s) (x := x) hx
  cases hv : s.contains x
  · have hnx : x ∉ s := by simpa using hv
    have : x ∉ replaceAll p r s := fun hc => hnx (hiff.mp hc)
    simpa using this
  · have hox : x ∈ s := by simpa using hv
    have : x ∈ replaceAll p r s := hiff.mpr hox
    simpa using this

theorem isoStroke_id_of_sEq {c : List Char} (h : containsSub sEq c = true) :
    isoStroke c = c := by
  unfold isoStroke
  rw [if_neg]
  simp [h]

theorem isoStroke_fire {c : List Char} (hsw : containsSub swEq c = true)
    (hs : containsSub sEq c = false) (hred : containsSub redStroke c = false) :
    isoStroke c = replaceAll swEq blackSW c := by
  unfold isoStroke
  rw [if_pos (by simp [hsw, hs])]
  rw [if_pos (by simp [hred])]

theorem pipStroke_id_of_sEq {c : List Char} (h : containsSub sEq c = true) :
    pipStroke c = c := by
  unfold pipStroke
  rw [if_neg]
  simp [h]

theorem pipStroke_fire {c : List Char} (hsw : containsSub swEq c = true)
    (hs : containsSub sEq c = false) :
    pipStroke c = replaceAll swEq blackSW c := by
  have hred : containsSub redStroke c = false := by
    cases hv : containsSub redStroke c
    · rfl
    · rw [containsSub_trans (by decide) hv] at hs
      exact absurd hs (by simp)
  have hhash : containsSub strokeHash c = false := by
    cases hv : containsSub strokeHash c
    · rfl
    · rw [containsSub_trans (by decide) hv] at hs
      exact absurd hs (by simp)
  unfold pipStroke
  rw [if_pos (by simp [hsw, hs])]
  rw [if_pos (by simp [hred, hhash])]

theorem firstTagFillNone_fill :
    ∀ (tags : List (List Char)) (c : List Char),
      (∀ t ∈ tags, t ≠ []) →
      tags.any (fun t => containsSub t c) = true →
      containsSub fillNoneQ (firstTagFillNone tags c) = true := by
  intro tags
  induction tags with
  | nil => intro c hne hany; simp at hany
  | cons t rest ih =>
      intro c hne hany
      rw [firstTagFillNone]
      by_cases hc : containsSub t c = true
      · rw [if_pos hc]
        have hrep := containsSub_rep (r := t ++ fillNone)
          (hne t (List.mem_cons_self t rest)) hc
        refine containsSub_trans ?_ hrep
        exact containsSub_appendL t (by decide)
      · rw [if_neg hc]
        refine ih c (fun u hu => hne u (List.mem_cons_of_mem t hu)) ?_
        simp only [List.any_cons, Bool.or_eq_true] at hany
        rcases hany with h2 | h2
        · exact absurd h2 hc
        · simpa using h2

theorem firstTagFillNone_abs {q : List Char} :
    ∀ (tags : List (List Char)) (c : List Char),
      containsSub q c = false →
      (∀ t ∈ tags, containsSub q (t ++ fillNone) = false ∧
        noCrossTail (t ++ fillNone) q ∧ noInner (t ++ fillNone) q) →
      containsSub q (firstTagFillNone tags c) = false := by
  intro tags
  induction tags with
  | nil => intro c h hc; exact h
  | cons t rest ih =>
      intro c h hc
      rw [firstTagFillNone]
      by_cases hct : containsSub t c = true
      · rw [if_pos hct]
        have hcond := hc t (List.mem_cons_self t rest)
        exact containsSub_replaceAll_abs hcond.1 hcond.2.1 hcond.2.2 h
      · rw [if_neg hct]
        exact ih c h (fun u hu => hc u (List.mem_cons_of_mem t hu))

theorem containsSub_absent_of_trans {a q c : List Char}
    (h1 : containsSub a q = true) (h2 : containsSub a c = false) :
    containsSub q c = false := by
  cases hv : containsSub q c
  · rfl
  · rw [containsSub_trans h1 hv] at h2
    exact absurd h2 (by simp)

/-- Shared reasoning for a path chunk with open data reaching the
`fill="none"` branch of the ISO fill stage. -/
theorem isoFill_path_open (d : List Char)
    (hpath : containsSub pathTag d = true)
    (hfill : containsSub fillEq d = false)
    (hsEq : containsSub sEq d = true)
    (hred : containsSub redStroke d = false)
    (hZ : d.contains 'Z' = false) (hz : d.contains 'z' = false) :
    containsSub fillNoneQ (isoFillStage d) = true ∧
      containsSub fillWhiteQ (isoFillStage d) = false := by
  unfold isoFillStage
  rw [if_pos (by simp [hfill, hsEq])]
  rw [if_neg (by simp [hred])]
  rw [if_pos hpath]
  rw [if_neg (fun hcc => by rw [hZ, hz] at hcc; simp at hcc)]
  constructor
  · have hrep := containsSub_rep (r := pathTag ++ fillNone) (by decide) hpath
    exact containsSub_trans (by decide) hrep
  · have hwq : containsSub fillWhiteQ d = false :=
      containsSub_absent_of_trans (by decide) hfill
    exact containsSub_replaceAll_abs (by decide) (by decide) (by decide) hwq

/-- C3 counterexample: a red-stroked circle that already carries
`fill="white"` keeps that fill; its normalized output does not contain
`fill="none"`. -/
theorem c3_counterexample :
    containsSub fillWhiteQ (cleanISO
      (("<svg><circle stroke=\"#ff0000\" fill=\"white\" r=\"4\"/></svg>").toList)) =
        true ∧
    containsSub fillNoneQ (cleanISO
      (("<svg><circle stroke=\"#ff0000\" fill=\"white\" r=\"4\"/></svg>").toList)) =
        false := by
  constructor
  · decide
  · decide

/-- C3 amended: a shape-bearing chunk with the reserved marker stroke gets
`fill="none"` — provided it does not already carry an explicit fill (chunks
with an existing fill are left untouched by the fill stage).  The conclusion
holds for every shape tag and regardless of path closure. -/
theorem c3_amended_red_fill_none (c : List Char)
    (hshape : isShape c = true)
    (hred : containsSub redStroke c = true)
    (hfill : containsSub fillEq c = false) :
    containsSub fillNoneQ (isoFixLine c) = true ∧
      containsSub fillWhiteQ (isoFixLine c) = false := by
  have hseq : containsSub sEq c = true := containsSub_trans (by decide) hred
  unfold isoFixLine
  rw [if_pos hshape, isoStroke_id_of_sEq hseq]
  unfold isoFillStage
  rw [if_pos (by simp [hfill, hseq])]
  rw [if_pos hred]
  constructor
  · exact firstTagFillNone_fill shapeTags c (by decide) hshape
  · refine firstTagFillNone_abs shapeTags c
      (containsSub_absent_of_trans (by decide) hfill) ?_
    decide

/-- Witness for C3's amended statement on a concrete red-stroked chunk. -/
theorem c3_amended_red_fill_none_witness :
    containsSub fillNoneQ
      (isoFixLine (("<circle stroke=\"#ff0000\" r=\"4\"").toList)) = true ∧
    containsSub fillWhiteQ
      (isoFixLine (("<circle stroke=\"#ff0000\" r=\"4\"").toList)) = false :=
  c3_amended_red_fill_none (("<circle stroke=\"#ff0000\" r=\"4\"").toList)
    (by decide) (by decide) (by decide)

/-- C4 counterexample: the closure test is `'Z' in line or 'z' in line` over
the whole chunk text, not over the path data.  A path whose data `M0 0L5 5`
has no closing command but whose `id` contains the letter `z` is filled
white, not none. -/
theorem c4_counterexample :
    (("M0 0L5 5").toList).contains 'Z' = false ∧
    (("M0 0L5 5").toList).contains 'z' = false ∧
    containsSub fillWhiteQ (cleanISO
      (("<svg><path id=\"frozen\" d=\"M0 0L5 5\" stroke-width=\"2\"/></svg>").toList)) =
        true ∧
    containsSub fillNoneQ (cleanISO
      (("<svg><path id=\"frozen\" d=\"M0 0L5 5\" stroke-width=\"2\"/></svg>").toList)) =
        false := by
  refine ⟨by decide, by decide, by decide, by decide⟩

/-- C4 amended: a path chunk whose whole text contains no `Z`/`z` character
— and which lacks an explicit fill, declares a stroke or stroke width, and
is not marker-colored — gets `fill="none"` (and never `fill="white"`). -/
theorem c4_amended_open_path (c : List Char)
    (hpath : containsSub pathTag c = true)
    (hfill : containsSub fillEq c = false)
    (hor : containsSub sEq c = true ∨ containsSub swEq c = true)
    (hred : containsSub redStroke c = false)
    (hZ : c.contains 'Z' = false) (hz : c.contains 'z' = false) :
    containsSub fillNoneQ (isoFixLine c) = true ∧
      containsSub fillWhiteQ (isoFixLine c) = false := by
  have hshape : isShape c = true := by
    unfold isShape shapeTags
    simp [hpath]
  unfold isoFixLine
  rw [if_pos hshape]
  cases hs : containsSub sEq c with
  | true =>
      rw [isoStroke_id_of_sEq hs]
      exact isoFill_path_open c hpath hfill hs hred hZ hz
  | false =>
      have hsw : containsSub swEq c = true := by
        rcases hor with h2 | h2
        · rw [h2] at hs
          exact absurd hs (by simp)
        · exact h2
      rw [isoStroke_fire hsw hs hred]
      refine isoFill_path_open (replaceAll swEq blackSW c) ?_ ?_ ?_ ?_ ?_ ?_
      · rw [containsSub_replaceAll_eq (by decide) (by decide) c]
        exact hpath
      · rw [containsSub_replaceAll_eq (by decide) (by decide) c]
        exact hfill
      · have hrep := containsSub_rep (r := blackSW) (by decide) hsw
        exact containsSub_trans (by decide) hrep
      · rw [containsSub_replaceAll_eq (by decide) (by decide) c]
        exact hred
      · rw [contains_replaceAll_eq (("stroke=\"#000000\" ").toList) []
          (by decide) (by decide) c]
        exact hZ
      · rw [contains_replaceAll_eq (("stroke=\"#000000\" ").toList) []
          (by decide) (by decide) c]
        exact hz

/-- Witness for C4's amended statement on a concrete open-path chunk. -/
theorem c4_amended_open_path_witness :
    containsSub fillNoneQ
      (isoFixLine (("<path d=\"M0 0L5 5\" stroke-width=\"2\"").toList)) = true ∧
    containsSub fillWhiteQ
      (isoFixLine (("<path d=\"M0 0L5 5\" stroke-width=\"2\"").toList)) = false :=
  c4_amended_open_path (("<path d=\"M0 0L5 5\" stroke-width=\"2\"").toList)
    (by decide) (by decide) (Or.inr (by decide)) (by decide) (by decide) (by decide)

/-- Shared reasoning for a circle chunk reaching the radius test of the PIP
pipes-and-signal-lines fill stage. -/
theorem pipFill_circle (d : List Char)
    (hcirc : containsSub circleTag d = true)
    (hfill : containsSub fillEq d = false)
    (hsEq : containsSub sEq d = true)
    (hred : containsSub redStroke d = false) :
    ((containsSub rOne d || containsSub rTwo d || containsSub rThree d) = true →
      containsSub fillBlackQ (pipFillStage d) = true ∧
        containsSub fillWhiteQ (pipFillStage d) = false) ∧
    ((containsSub rOne d || containsSub rTwo d || containsSub rThree d) = false →
      containsSub fillWhiteQ (pipFillStage d) = true ∧
        containsSub fillBlackQ (pipFillStage d) = false) := by
  unfold pipFillStage
  rw [if_pos (by simp [hfill, hsEq])]
  rw [if_neg (by simp [hred])]
  rw [if_pos hcirc]
  constructor
  · intro hcond
    rw [if_pos hcond]
    constructor
    · have hrep := containsSub_rep (r := circleTag ++ fillBlack) (by decide) hcirc
      exact containsSub_trans (by decide) hrep
    · have hwd : containsSub fillWhiteQ d = false :=
        containsSub_absent_of_trans (by decide) hfill
      exact containsSub_replaceAll_abs (by decide) (by decide) (by decide) hwd
  · intro hcond
    rw [if_neg (by simp [hcond])]
    constructor
    · have hrep := containsSub_rep (r := circleTag ++ fillWhite) (by decide) hcirc
      exact containsSub_trans (by decide) hrep
    · have hbd : containsSub fillBlackQ d = false :=
        containsSub_absent_of_trans (by decide) hfill
      exact containsSub_replaceAll_abs (by decide) (by decide) (by decide) hbd

/-- C5 counterexample: the radius test is the literal substring check
`'r="1"' in line or 'r="2"' in line or 'r="3"' in line`, not a numeric
comparison.  A circle of radius 2.5 (at most 3 units) is filled white, not
black. -/
theorem c5_counterexample :
    containsSub fillWhiteQ (cleanPIP
      (("<svg><circle cx=\"0\" cy=\"0\" r=\"2.5\" stroke-width=\"1\"/></svg>").toList)) =
        true ∧
    containsSub fillBlackQ (cleanPIP
      (("<svg><circle cx=\"0\" cy=\"0\" r=\"2.5\" stroke-width=\"1\"/></svg>").toList)) =
        false := by
  constructor
  · decide
  · decide

/-- C5 amended: in the PIP pipes-and-signal-lines family, a circle chunk
lacking fill, not marker-colored, and declaring a stroke or stroke width is
filled solid black exactly when its text contains one of the literal
substrings `r="1"`, `r="2"`, `r="3"`, and white otherwise. -/
theorem c5_amended_pip_circle (c : List Char)
    (hcirc : containsSub circleTag c = true)
    (hfill : containsSub fillEq c = false)
    (hor : containsSub sEq c = true ∨ containsSub swEq c = true)
    (hred : containsSub redStroke c = false) :
    ((containsSub rOne c || containsSub rTwo c || containsSub rThree c) = true →
      containsSub fillBlackQ (pipFixLine c) = true ∧
        containsSub fillWhiteQ (pipFixLine c) = false) ∧
    ((containsSub rOne c || containsSub rTwo c || containsSub rThree c) = false →
      containsSub fillWhiteQ (pipFixLine c) = true ∧
        containsSub fillBlackQ (pipFixLine c) = false) := by
  have hshape : isShape c = true := by
    unfold isShape shapeTags
    simp [hcirc]
  unfold pipFixLine
  rw [if_pos hshape]
  cases hs : containsSub sEq c with
  | true =>
      rw [pipStroke_id_of_sEq hs]
      exact pipFill_circle c hcirc hfill hs hred
  | false =>
      have hsw : containsSub swEq c = true := by
        rcases hor with h2 | h2
        · rw [h2] at hs
          exact absurd hs (by simp)
        · exact h2
      rw [pipStroke_fire hsw hs]
      have e1 : containsSub circleTag (replaceAll swEq blackSW c) =
          containsSub circleTag c :=
        containsSub_replaceAll_eq (by decide) (by decide) c
      have e2 : containsSub fillEq (replaceAll swEq blackSW c) =
          containsSub fillEq c :=
        containsSub_replaceAll_eq (by decide) (by decide) c
      have e3 : containsSub redStroke (replaceAll swEq blackSW c) =
          containsSub redStroke c :=
        containsSub_replaceAll_eq (by decide) (by decide) c
      have e4 : containsSub rOne (replaceAll swEq blackSW c) =
          containsSub rOne c :=
        containsSub_replaceAll_eq (by decide) (by decide) c
      have e5 : containsSub rTwo (replaceAll swEq blackSW c) =
          containsSub rTwo c :=
        containsSub_replaceAll_eq (by decide) (by decide) c
      have e6 : containsSub rThree (replaceAll swEq blackSW c) =
          containsSub rThree c :=
        containsSub_replaceAll_eq (by decide) (by decide) c
      have e7 : containsSub sEq (replaceAll swEq blackSW c) = true := by
        have hrep := containsSub_rep (r := blackSW) (by decide) hsw
        exact containsSub_trans (by decide) hrep
      have hmain := pipFill_circle (replaceAll swEq blackSW c)
        (by rw [e1]; exact hcirc) (by rw [e2]; exact hfill) e7
        (by rw [e3]; exact hred)
      rw [e4, e5, e6] at hmain
      exact hmain

/-- Witness for C5's amended statement: a circle with `r="2.5"` is filled
white. -/
theorem c5_amended_pip_circle_witness :
    containsSub fillWhiteQ
      (pipFixLine (("<circle cx=\"0\" r=\"2.5\" stroke-width=\"1\"").toList)) = true ∧
    containsSub fillBlackQ
      (pipFixLine (("<circle cx=\"0\" r=\"2.5\" stroke-width=\"1\"").toList)) = false :=
  (c5_amended_pip_circle (("<circle cx=\"0\" r=\"2.5\" stroke-width=\"1\"").toList)
    (by decide) (by decide) (Or.inr (by decide)) (by decide)).2 (by decide)

/-! Counting occurrences: support for the exactly-once claims. -/

theorem countPos_zero_iff {q s : List Char} (hq : q ≠ []) :
    countPos q s = 0 ↔ containsSub q s = false := by
  induction s with
  | nil =>
      simp only [countPos, containsSub]
      cases q with
      | nil => exact absurd rfl hq
      | cons d t => simp [isPre]
  | cons c rest ih =>
      simp only [countPos, containsSub]
      cases hv : isPre q (c :: rest)
      · rw [if_neg (by simp : ¬(false = true))]
        simp only [Nat.zero_add, Bool.false_or]
        exact ih
      · rw [if_pos rfl]
        constructor
        · intro h
          exact absurd h (by omega)
        · intro h
          simp at h

theorem contains_of_countPos_pos {q s : List Char} (hq : q ≠ [])
    (h : 0 < countPos q s) : containsSub q s = true := by
  cases hv : containsSub q s
  · rw [(countPos_zero_iff hq).mpr hv] at h
    omega
  · rfl

theorem countPos_pos_of_contains {q s : List Char} (hq : q ≠ [])
    (h : containsSub q s = true) : 0 < countPos q s := by
  induction s with
  | nil =>
      rw [containsSub] at h
      cases q with
      | nil => exact absurd rfl hq
      | cons d t => simp [isPre] at h
  | cons c rest ih =>
      rw [containsSub, Bool.or_eq_true] at h
      rw [countPos]
      rcases h with h2 | h2
      · rw [if_pos h2]
        omega
      · have := ih h2
        omega

theorem isPre_mono_right {q a : List Char} (b : List Char)
    (h : isPre q a = true) : isPre q (a ++ b) = true := by
  obtain ⟨t, rfl⟩ := isPre_iff.mp h
  rw [List.append_assoc]
  exact isPre_self_append q (t ++ b)

theorem isPre_of_append_le {q a b : List Char} (hlen : q.length ≤ a.length)
    (h : isPre q (a ++ b) = true) : isPre q a = true := by
  rcases isPre_append_split h with h2 | ⟨p2, rfl, h3⟩
  · exact h2
  · have : p2 = [] := by
      have := congrArg List.length (rfl : a ++ p2 = a ++ p2)
      simp only [List.length_append] at hlen
      have : p2.length = 0 := by
        have h4 : a.length + p2.length ≤ a.length := by
          simpa using hlen
        omega
      exact List.length_eq_zero.mp this
    rw [this]
    simpa using isPre_self_append a []

theorem noCrossOut_tail {c : Char} {r2 q : List Char}
    (h : noCrossOut (c :: r2) q) : noCrossOut r2 q := by
  intro t ht hne hpre
  refine h t ?_ hne hpre
  rw [List.mem_tails] at ht ⊢
  exact ht.trans (List.suffix_cons c r2)

theorem countPos_append_nco {r q : List Char} (hnc : noCrossOut r q) :
    ∀ b, countPos q (r ++ b) = countPos q r + countPos q b := by
  induction r with
  | nil => intro b; simp [countPos]
  | cons c r2 ih =>
      intro b
      rw [List.cons_append, countPos, countPos]
      rw [ih (noCrossOut_tail hnc) b]
      have hpres : isPre q ((c :: r2) ++ b) = isPre q (c :: r2) := by
        cases hv : isPre q (c :: r2)
        · cases hv2 : isPre q ((c :: r2) ++ b)
          · rfl
          · exfalso
            by_cases hlen : q.length ≤ (c :: r2).length
            · rw [isPre_of_append_le hlen hv2] at hv
              exact absurd hv (by simp)
            · push_neg at hlen
              rcases isPre_append_split hv2 with h2 | ⟨p2, hp2, h3⟩
              · rw [h2] at hv
                exact absurd hv (by simp)
              · have := hnc (c :: r2) (by rw [List.mem_tails]) (by simp)
                  (by rw [hp2]; exact isPre_self_append _ _)
                omega
        · exact isPre_mono_right b hv
      rw [List.cons_append] at hpres
      rw [hpres]
      omega

theorem isPre_append_sep {q a b : List Char} {g : Char} (hg : g ∉ q) :
    isPre q (a ++ g :: b) = isPre q a := by
  induction a generalizing q with
  | nil =>
      cases q with
      | nil => rfl
      | cons d q2 =>
          have hdg : (d == g) = false := by
            simp only [beq_eq_false_iff_ne]
            intro hc
            exact hg (hc ▸ List.mem_cons_self d q2)
          simp [isPre, hdg]
  | cons c a2 ih =>
      cases q with
      | nil => rfl
      | cons d q2 =>
          simp only [List.cons_append, isPre, List.append_eq]
          rw [ih (fun hm => hg (List.mem_cons_of_mem d hm))]

theorem countPos_append_sep {q : List Char} {g : Char} (hg : g ∉ q)
    (hq : q ≠ []) : ∀ a b, countPos q (a ++ g :: b) = countPos q a + countPos q b := by
  intro a
  induction a with
  | nil =>
      intro b
      simp only [List.nil_append, countPos]
      have : isPre q (g :: b) = false := by
        cases q with
        | nil => exact absurd rfl hq
        | cons d q2 =>
            have hdg : (d == g) = false := by
              simp only [beq_eq_false_iff_ne]
              intro hc
              exact hg (hc ▸ List.mem_cons_self d q2)
            simp [isPre, hdg]
      rw [if_neg (by simp [this])]
  | cons c a2 ih =>
      intro b
      rw [List.cons_append, countPos, countPos]
      rw [ih b]
      rw [show c :: (a2 ++ g :: b) = (c :: a2) ++ g :: b from rfl]
      rw [isPre_append_sep hg]
      omega

theorem countPos_joinGt {q : List Char} (hg : '>' ∉ q) (hq : q ≠ []) :
    ∀ L : List (List Char), countPos q (joinGt L) = (L.map (countPos q)).sum := by
  intro L
  induction L with
  | nil => simp [joinGt, countPos]
  | cons x L2 ih =>
      cases L2 with
      | nil => simp [joinGt]
      | cons y t =>
          rw [show joinGt (x :: y :: t) = x ++ '>' :: joinGt (y :: t) from rfl]
          rw [countPos_append_sep hg hq]
          rw [ih]
          simp

/-- Condition: no occurrence of `p` can overlap another (no nonempty proper
tail of `p` is a prefix of `p`). -/
def noSelfOverlap (p : List Char) : Prop :=
  ∀ j ∈ List.range p.length, 1 ≤ j → isPre (p.drop j) p = false

instance noSelfOverlapDec (p : List Char) : Decidable (noSelfOverlap p) := by
  unfold noSelfOverlap
  exact List.decidableBAll _ _

theorem countPos_drop_self {p : List Char} (hself : noSelfOverlap p)
    (b : List Char) :
    ∀ (n : Nat) (j : Nat), 1 ≤ j → j ≤ p.length → p.length - j ≤ n →
      countPos p ((p.drop j) ++ b) = countPos p b := by
  intro n
  induction n with
  | zero =>
      intro j hj1 hj2 hj3
      have : p.drop j = [] := List.drop_eq_nil_of_le (by omega)
      rw [this]
      rfl
  | succ n ih =>
      intro j hj1 hj2 hj3
      by_cases hje : j = p.length
      · rw [hje, List.drop_length]
        rfl
      · have hjlt : j < p.length := by omega
        cases hd : p.drop j with
        | nil =>
            exfalso
            have : p.length ≤ j := by
              by_contra hc
              push_neg at hc
              have : (p.drop j).length = p.length - j := by simp
              rw [hd] at this
              simp at this
              omega
            omega
        | cons d p2 =>
            rw [List.cons_append, countPos]
            have hnomatch : isPre p (d :: (p2 ++ b)) = false := by
              cases hv : isPre p (d :: (p2 ++ b))
              · rfl
              · exfalso
                have hdp : isPre (p.drop j) ((p.drop j) ++ b) = true :=
                  isPre_self_append _ _
                rw [hd, List.cons_append] at hdp
                have hcmp := isPre_comparable hv hdp
                have hlen : (d :: p2).length < p.length := by
                  have h2 : (p.drop j).length = p.length - j := by simp
                  rw [hd] at h2
                  simp only [List.length_cons] at h2 ⊢
                  omega
                rcases hcmp with h2 | h2
                · have := isPre_length h2
                  omega
                · have h3 := hself j (List.mem_range.mpr hjlt) hj1
                  rw [hd] at h3
                  rw [h3] at h2
                  exact absurd h2 (by simp)
            rw [if_neg (by simp [hnomatch])]
            have hnext : p.drop (j + 1) = p2 := drop_succ_of_drop_cons hd
            have hrec := ih (j + 1) (by omega) (by omega) (by omega)
            rw [hnext] at hrec
            rw [hrec]
            omega

theorem countPos_self_append {p : List Char} (hself : noSelfOverlap p)
    (hp : p ≠ []) (b : List Char) :
    countPos p (p ++ b) = 1 + countPos p b := by
  have hmain := countPos_drop_self hself b p.length 1 (by omega)
    (by cases p with
        | nil => exact absurd rfl hp
        | cons c p2 => simp)
    (by omega)
  cases p with
  | nil => exact absurd rfl hp
  | cons c p2 =>
      rw [List.cons_append, countPos]
      rw [if_pos (by simpa using isPre_self_append (c :: p2) b)]
      simp only [List.drop_one, List.tail_cons] at hmain
      rw [hmain]

/-- A `replaceAll p r` rewrite leaves the occurrence count of `q` unchanged
when these (decidable) conditions hold. -/
def countTransparent (p r q : List Char) : Prop :=
  containsSub q p = false ∧ containsSub q r = false ∧
  noCrossOut p q ∧ noCrossOut r q ∧ noInner p q ∧ noInner r q

instance countTransparentDec (p r q : List Char) :
    Decidable (countTransparent p r q) := by
  unfold countTransparent
  infer_instance

theorem isPre_head_replaceAll_eq {p r q : List Char} (hC : noInner p q)
    (hF : noInner r q) (c : Char) (rest : List Char) :
    isPre q (c :: replaceAll p r rest) = isPre q (c :: rest) := by
  cases q with
  | nil => rfl
  | cons d q2 =>
      simp only [isPre]
      cases hv : isPre q2 rest
      · cases hv2 : isPre q2 (replaceAll p r rest)
        · rfl
        · exfalso
          have := isPre_tail_replaceAll_rev (p := p) (r := r)
            (q := d :: q2) hF rest 1 (by omega) (by simpa using hv2)
          simp only [List.drop_one, List.tail_cons] at this
          rw [this] at hv
          exact absurd hv (by simp)
      · have := isPre_tail_replaceAll (p := p) (r := r) (q := d :: q2) hC rest 1
          (by omega) (by simpa using hv)
        simp only [List.drop_one, List.tail_cons] at this
        rw [this]

theorem countPos_replaceAll_eq {p r q : List Char} (hp : p ≠ [])
    (hq : q ≠ []) (ht : countTransparent p r q) (s : List Char) :
    countPos q (replaceAll p r s) = countPos q s := by
  induction s using replaceAllInduct p r with
  | case1 => rw [replaceAll_nil]
  | case2 c rest hcond ih =>
      rw [replaceAll_cons_pos hcond]
      simp only [Bool.and_eq_true] at hcond
      obtain ⟨tail, htail⟩ := isPre_iff.mp hcond.1
      have hdrop : (c :: rest).drop p.length = tail := by
        rw [htail, List.drop_left]
      rw [hdrop] at ih ⊢
      rw [countPos_append_nco ht.2.2.2.1]
      rw [(countPos_zero_iff hq).mpr ht.2.1]
      rw [ih]
      rw [htail, countPos_append_nco ht.2.2.1]
      rw [(countPos_zero_iff hq).mpr ht.1]
  | case3 c rest hcond ih =>
      rw [replaceAll_cons_neg hcond]
      rw [countPos, countPos]
      rw [isPre_head_replaceAll_eq ht.2.2.2.2.1 ht.2.2.2.2.2 c rest]
      rw [ih]

theorem countPos_replaceAll_single {p r q s : List Char} (hp : p ≠ [])
    (hq : q ≠ []) (hself : noSelfOverlap p)
    (hqs : containsSub q s = false)
    (hrq : noCrossOut r q) (hFr : noInner r q)
    (hone : countPos p s = 1) :
    countPos q (replaceAll p r s) = countPos q r := by
  induction s using replaceAllInduct p r with
  | case1 => simp [countPos] at hone
  | case2 c rest hcond ih =>
      rw [replaceAll_cons_pos hcond]
      simp only [Bool.and_eq_true] at hcond
      obtain ⟨tail, htail⟩ := isPre_iff.mp hcond.1
      have hdrop : (c :: rest).drop p.length = tail := by
        rw [htail, List.drop_left]
      rw [hdrop]
      have htail0 : countPos p tail = 0 := by
        rw [htail, countPos_self_append hself hp] at hone
        omega
      have htailnc : containsSub p tail = false := (countPos_zero_iff hp).mp htail0
      rw [replaceAll_id_of_not_contains htailnc]
      rw [countPos_append_nco hrq]
      have hqt : containsSub q tail = false := by
        cases hv : containsSub q tail
        · rfl
        · rw [htail] at hqs
          rw [containsSub_appendL p hv] at hqs
          exact absurd hqs (by simp)
      rw [(countPos_zero_iff hq).mpr hqt]
      omega
  | case3 c rest hcond ih =>
      rw [replaceAll_cons_neg hcond]
      have hhead : isPre q (c :: rest) = false := by
        cases hv : isPre q (c :: rest)
        · rfl
        · rw [containsSub, hv] at hqs
          simp at hqs
      have hqrest : containsSub q rest = false := by
        cases hv : containsSub q rest
        · rfl
        · rw [containsSub, hv] at hqs
          simp at hqs
      have honerest : countPos p rest = 1 := by
        rw [countPos] at hone
        by_cases hv : isPre p (c :: rest) = true
        · exact absurd (by simp [hv, notEmpty_of_ne hp]) hcond
        · rw [if_neg hv] at hone
          omega
      rw [countPos]
      have hh2 : isPre q (c :: replaceAll p r rest) = false := by
        cases hv : isPre q (c :: replaceAll p r rest)
        · rfl
        · exfalso
          cases q with
          | nil => exact hq rfl
          | cons d q2 =>
              simp only [isPre, Bool.and_eq_true, beq_iff_eq] at hv
              have hrev := isPre_tail_replaceAll_rev (p := p) (r := r)
                (q := d :: q2) hFr rest 1 (by omega) (by simpa using hv.2)
              simp only [List.drop_one, List.tail_cons] at hrev
              rw [show isPre (d :: q2) (c :: rest) = true from by
                simp [isPre, hv.1, hrev]] at hhead
              exact absurd hhead (by simp)
      rw [if_neg (by simp [hh2])]
      rw [ih hqrest honerest]
      omega

theorem isPre_head_replaceFirst_eq {p r q : List Char} (hC : noInner p q)
    (hF : noInner r q) (c : Char) (rest : List Char) :
    isPre q (c :: replaceFirst p r rest) = isPre q (c :: rest) := by
  cases q with
  | nil => rfl
  | cons d q2 =>
      simp only [isPre]
      cases hv : isPre q2 rest
      · cases hv2 : isPre q2 (replaceFirst p r rest)
        · rfl
        · exfalso
          have := isPre_tail_replaceFirst_rev (p := p) (r := r)
            (q := d :: q2) hF rest 1 (by omega) (by simpa using hv2)
          simp only [List.drop_one, List.tail_cons] at this
          rw [this] at hv
          exact absurd hv (by simp)
      · have := isPre_tail_replaceFirst (p := p) (r := r) (q := d :: q2) hC rest 1
          (by omega) (by simpa using hv)
        simp only [List.drop_one, List.tail_cons] at this
        rw [this]

theorem countPos_replaceFirst_add {p r q s : List Char} (hp : p ≠ [])
    (hq : q ≠ [])
    (hcontains : containsSub p s = true)
    (hqp : containsSub q p = false)
    (hpq : noCrossOut p q) (hrq : noCrossOut r q)
    (hCp : noInner p q) (hFr : noInner r q) :
    countPos q (replaceFirst p r s) = countPos q r + countPos q s := by
  induction s with
  | nil =>
      rw [containsSub] at hcontains
      cases p with
      | nil => exact absurd rfl hp
      | cons a t => simp [isPre] at hcontains
  | cons c rest ih =>
      by_cases hcond : (isPre p (c :: rest) && !(p.isEmpty)) = true
      · rw [replaceFirst_cons_pos hcond]
        simp only [Bool.and_eq_true] at hcond
        obtain ⟨tail, htail⟩ := isPre_iff.mp hcond.1
        have hdrop : (c :: rest).drop p.length = tail := by
          rw [htail, List.drop_left]
        rw [hdrop]
        rw [countPos_append_nco hrq]
        rw [htail]
        rw [countPos_append_nco hpq]
        rw [(countPos_zero_iff hq).mpr hqp]
        omega
      · rw [replaceFirst_cons_neg hcond]
        have hrest : containsSub p rest = true := by
          rw [containsSub, isPre_false_of_cond hp hcond] at hcontains
          simpa using hcontains
        rw [countPos, countPos]
        rw [isPre_head_replaceFirst_eq hCp hFr c rest]
        rw [ih hrest]
        omega

/-! C2 support: the fill stage injects exactly one fill attribute. -/

/-- Total number of shape-tag occurrences in a chunk. -/
def totalTagCount (c : List Char) : Nat :=
  (shapeTags.map (fun t => countPos t c)).sum

theorem totalTagCount_unfold (c : List Char) :
    totalTagCount c = countPos pathTag c + countPos rectTag c +
      countPos circleTag c + countPos ellipseTag c + countPos polygonTag c +
      countPos polylineTag c + countPos lineTag c := by
  unfold totalTagCount shapeTags
  simp [List.sum_cons]
  omega

theorem isoStroke_eq_or (c : List Char) :
    isoStroke c = c ∨ isoStroke c = replaceAll swEq blackSW c := by
  unfold isoStroke
  by_cases h1 : (containsSub swEq c && !(containsSub sEq c)) = true
  · rw [if_pos h1]
    by_cases h2 : (!(containsSub redStroke c)) = true
    · rw [if_pos h2]
      exact Or.inr rfl
    · rw [if_neg h2]
      exact Or.inl rfl
  · rw [if_neg h1]
    exact Or.inl rfl

theorem countPos_isoStroke_eq {q : List Char} (hq : q ≠ [])
    (ht : countTransparent swEq blackSW q) (c : List Char) :
    countPos q (isoStroke c) = countPos q c := by
  rcases isoStroke_eq_or c with h | h
  · rw [h]
  · rw [h]
    exact countPos_replaceAll_eq (by decide) hq ht c

theorem count_le_one_of_total {c : List Char} {t : List Char}
    (hmem : t ∈ shapeTags) (htag : totalTagCount c = 1)
    (hcont : containsSub t c = true) : countPos t c = 1 := by
  have hall : ∀ u ∈ shapeTags, u ≠ [] := by decide
  have hne : t ≠ [] := hall t hmem
  have hpos := countPos_pos_of_contains hne hcont
  have hle : countPos t c ≤ totalTagCount c := by
    have hmem2 : countPos t c ∈ shapeTags.map (fun u => countPos u c) :=
      List.mem_map.mpr ⟨t, hmem, rfl⟩
    exact List.single_le_sum (fun x _ => Nat.zero_le x) _ hmem2
  omega

theorem firstTagFillNone_count_one :
    ∀ (tags : List (List Char)) (d : List Char),
      (∀ t ∈ tags, t ≠ [] ∧ noSelfOverlap t ∧
        noCrossOut (t ++ fillNone) fillEq ∧ noInner (t ++ fillNone) fillEq ∧
        countPos fillEq (t ++ fillNone) = 1) →
      containsSub fillEq d = false →
      (∀ t ∈ tags, containsSub t d = true → countPos t d = 1) →
      tags.any (fun t => containsSub t d) = true →
      countPos fillEq (firstTagFillNone tags d) = 1 := by
  intro tags
  induction tags with
  | nil => intro d hconds hfill hbound hany; simp at hany
  | cons t rest ih =>
      intro d hconds hfill hbound hany
      rw [firstTagFillNone]
      by_cases hct : containsSub t d = true
      · rw [if_pos hct]
        have hc := hconds t (List.mem_cons_self t rest)
        rw [countPos_replaceAll_single hc.1 (by decide) hc.2.1 hfill
          hc.2.2.1 hc.2.2.2.1 (hbound t (List.mem_cons_self t rest) hct)]
        exact hc.2.2.2.2
      · rw [if_neg hct]
        refine ih d (fun u hu => hconds u (List.mem_cons_of_mem t hu)) hfill
          (fun u hu => hbound u (List.mem_cons_of_mem t hu)) ?_
        simp only [List.any_cons, Bool.or_eq_true] at hany
        rcases hany with h2 | h2
        · exact absurd h2 hct
        · simpa using h2

/-- The ISO fill stage puts exactly one `fill=` on a chunk that lacks one,
has stroke information, and carries exactly one shape-tag occurrence. -/
theorem isoFill_count_one (d : List Char)
    (hfill : containsSub fillEq d = false)
    (hsEq : containsSub sEq d = true)
    (htag : totalTagCount d = 1) :
    countPos fillEq (isoFillStage d) = 1 := by
  have hany : isShape d = true := by
    cases hv : isShape d
    · exfalso
      unfold isShape shapeTags at hv
      simp only [List.any_cons, List.any_nil, Bool.or_eq_false_iff] at hv
      rw [totalTagCount_unfold] at htag
      rw [(countPos_zero_iff (by decide)).mpr hv.1,
          (countPos_zero_iff (by decide)).mpr hv.2.1,
          (countPos_zero_iff (by decide)).mpr hv.2.2.1,
          (countPos_zero_iff (by decide)).mpr hv.2.2.2.1,
          (countPos_zero_iff (by decide)).mpr hv.2.2.2.2.1,
          (countPos_zero_iff (by decide)).mpr hv.2.2.2.2.2.1,
          (countPos_zero_iff (by decide)).mpr hv.2.2.2.2.2.2.1] at htag
      simp at htag
    · rfl
  unfold isoFillStage
  rw [if_pos (by simp [hfill, hsEq])]
  by_cases hred : containsSub redStroke d = true
  · rw [if_pos hred]
    refine firstTagFillNone_count_one shapeTags d (by decide) hfill ?_ hany
    intro t hmem hcont
    exact count_le_one_of_total hmem htag hcont
  · rw [if_neg hred]
    by_cases hpath : containsSub pathTag d = true
    · rw [if_pos hpath]
      have hone := count_le_one_of_total (by decide) htag hpath
      by_cases hz : (d.contains 'Z' || d.contains 'z') = true
      · rw [if_pos hz]
        rw [countPos_replaceAll_single (by decide) (by decide) (by decide)
          hfill (by decide) (by decide) hone]
        decide
      · rw [if_neg hz]
        rw [countPos_replaceAll_single (by decide) (by decide) (by decide)
          hfill (by decide) (by decide) hone]
        decide
    · rw [if_neg hpath]
      by_cases hpoly : containsSub polygonTag d = true
      · rw [if_pos hpoly]
        have hone := count_le_one_of_total (by decide) htag hpoly
        rw [countPos_replaceAll_single (by decide) (by decide) (by decide)
          hfill (by decide) (by decide) hone]
        decide
      · rw [if_neg hpoly]
        by_cases hce : (containsSub circleTag d || containsSub ellipseTag d) = true
        · rw [if_pos hce]
          by_cases hcir : containsSub circleTag d = true
          · have honec := count_le_one_of_total (by decide) htag hcir
            have hellne : containsSub ellipseTag d = false := by
              cases hv : containsSub ellipseTag d
              · rfl
              · exfalso
                have h1 := countPos_pos_of_contains (by decide) hcir
                have h2 := countPos_pos_of_contains (by decide) hv
                rw [totalTagCount_unfold] at htag
                omega
            have hmid : countPos fillEq
                (replaceAll circleTag (circleTag ++ fillWhite) d) = 1 := by
              rw [countPos_replaceAll_single (by decide) (by decide) (by decide)
                hfill (by decide) (by decide) honec]
              decide
            have hellmid : containsSub ellipseTag
                (replaceAll circleTag (circleTag ++ fillWhite) d) = false := by
              rw [containsSub_replaceAll_eq (by decide) (by decide) d]
              exact hellne
            rw [replaceAll_id_of_not_contains hellmid]
            exact hmid
          · have hell : containsSub ellipseTag d = true := by
              simp only [Bool.or_eq_true] at hce
              rcases hce with h2 | h2
              · exact absurd h2 hcir
              · exact h2
            have honee := count_le_one_of_total (by decide) htag hell
            have hcirfalse : containsSub circleTag d = false := by
              cases hv : containsSub circleTag d
              · rfl
              · exact absurd hv hcir
            rw [replaceAll_id_of_not_contains hcirfalse]
            rw [countPos_replaceAll_single (by decide) (by decide) (by decide)
              hfill (by decide) (by decide) honee]
            decide
        · rw [if_neg hce]
          by_cases hrect : containsSub rectTag d = true
          · rw [if_pos hrect]
            have hone := count_le_one_of_total (by decide) htag hrect
            rw [countPos_replaceAll_single (by decide) (by decide) (by decide)
              hfill (by decide) (by decide) hone]
            decide
          · rw [if_neg hrect]
            by_cases hline : containsSub lineTag d = true
            · rw [if_pos hline]
              have hone := count_le_one_of_total (by decide) htag hline
              rw [countPos_replaceAll_single (by decide) (by decide) (by decide)
                hfill (by decide) (by decide) hone]
              decide
            · rw [if_neg hline]
              refine firstTagFillNone_count_one shapeTags d (by decide) hfill ?_ hany
              intro t hmem hcont
              exact count_le_one_of_total hmem htag hcont

/-- C2 counterexample: a shape-bearing chunk (a circle) lacking an explicit
fill receives NO fill at all when it declares neither a stroke nor a
stroke-width: the whole guard of the fill stage fails and the element leaves
the normalizer still without a fill attribute. -/
theorem c2_counterexample :
    containsSub circleTag (("<svg><circle r=\"5\"/></svg>").toList) = true ∧
    containsSub fillEq (("<svg><circle r=\"5\"/></svg>").toList) = false ∧
    containsSub fillEq
      (cleanISO (("<svg><circle r=\"5\"/></svg>").toList)) = false := by
  refine ⟨by decide, by decide, by decide⟩

/-- C2 (amended): for a '>'-chunk that lacks an explicit fill, declares a
stroke or a stroke-width, and carries exactly one shape-tag occurrence, the
per-chunk fixup applies exactly one fill policy: the output chunk contains
exactly one `fill=` attribute.  Chunks without stroke information are not
given any fill (see the counterexample). -/
theorem c2_amended_unique_fill (c : List Char)
    (hfill : containsSub fillEq c = false)
    (hstroke : containsSub sEq c = true ∨ containsSub swEq c = true)
    (htag : totalTagCount c = 1) :
    countPos fillEq (isoFixLine c) = 1 ∧
      containsSub fillEq (isoFixLine c) = true := by
  have hshape : isShape c = true := by
    cases hv : isShape c
    · exfalso
      unfold isShape shapeTags at hv
      simp only [List.any_cons, List.any_nil, Bool.or_eq_false_iff] at hv
      rw [totalTagCount_unfold] at htag
      rw [(countPos_zero_iff (by decide)).mpr hv.1,
          (countPos_zero_iff (by decide)).mpr hv.2.1,
          (countPos_zero_iff (by decide)).mpr hv.2.2.1,
          (countPos_zero_iff (by decide)).mpr hv.2.2.2.1,
          (countPos_zero_iff (by decide)).mpr hv.2.2.2.2.1,
          (countPos_zero_iff (by decide)).mpr hv.2.2.2.2.2.1,
          (countPos_zero_iff (by decide)).mpr hv.2.2.2.2.2.2.1] at htag
      simp at htag
    · rfl
  have hfd : containsSub fillEq (isoStroke c) = false := by
    rcases isoStroke_eq_or c with h | h
    · rw [h]; exact hfill
    · rw [h, containsSub_replaceAll_eq (by decide) (by decide) c]; exact hfill
  have hsd : containsSub sEq (isoStroke c) = true := by
    cases hse : containsSub sEq c
    · have hsw : containsSub swEq c = true := by
        rcases hstroke with h | h
        · exact absurd h (by rw [hse]; exact Bool.false_ne_true)
        · exact h
      have hred : containsSub redStroke c = false := by
        cases hr : containsSub redStroke c
        · rfl
        · exact absurd (@containsSub_trans sEq redStroke c (by decide) hr)
            (by rw [hse]; exact Bool.false_ne_true)
      rw [isoStroke_fire hsw hse hred]
      exact containsSub_trans (by decide) (containsSub_rep (by decide) hsw)
    · rw [isoStroke_id_of_sEq hse]; exact hse
  have htd : totalTagCount (isoStroke c) = totalTagCount c := by
    rw [totalTagCount_unfold, totalTagCount_unfold,
      @countPos_isoStroke_eq pathTag (by decide) (by decide) c,
      @countPos_isoStroke_eq rectTag (by decide) (by decide) c,
      @countPos_isoStroke_eq circleTag (by decide) (by decide) c,
      @countPos_isoStroke_eq ellipseTag (by decide) (by decide) c,
      @countPos_isoStroke_eq polygonTag (by decide) (by decide) c,
      @countPos_isoStroke_eq polylineTag (by decide) (by decide) c,
      @countPos_isoStroke_eq lineTag (by decide) (by decide) c]
  have hone : countPos fillEq (isoFillStage (isoStroke c)) = 1 :=
    isoFill_count_one (isoStroke c) hfd hsd (htd.trans htag)
  have hout : isoFixLine c = isoFillStage (isoStroke c) := by
    unfold isoFixLine
    rw [if_pos hshape]
  rw [hout]
  exact ⟨hone, contains_of_countPos_pos (by decide) (by rw [hone]; exact Nat.one_pos)⟩

/-- Witness for C2's amended statement: a fill-less circle chunk with a
stroke-width gets exactly one fill attribute. -/
theorem c2_amended_unique_fill_witness :
    countPos fillEq
      (isoFixLine (("<circle r=\"4\" stroke-width=\"1\"").toList)) = 1 ∧
    containsSub fillEq
      (isoFixLine (("<circle r=\"4\" stroke-width=\"1\"").toList)) = true :=
  c2_amended_unique_fill (("<circle r=\"4\" stroke-width=\"1\"").toList)
    (by decide) (Or.inr (by decide)) (by decide)

/-! C6 support: counting default-namespace declarations through the
pipeline. -/

/-- The full inserted default-namespace attribute text. -/
def xmlnsFull : List Char := ("xmlns=\"http://www.w3.org/2000/svg\"").toList

/-- Conditions letting `countPos q` distribute over a `replaceFirst` of the
root `<svg` opening. -/
def injTransparent (q : List Char) : Prop :=
  containsSub q svgOpen = false ∧ noCrossOut svgOpen q ∧ noInner svgOpen q

instance injTransparentDec (q : List Char) : Decidable (injTransparent q) := by
  unfold injTransparent
  infer_instance

/-- Conditions making the per-chunk fixups of the ISO extractor transparent
to `countPos q`. -/
def isoLinePres (q : List Char) : Prop :=
  countTransparent swEq blackSW q ∧
  ∀ t ∈ shapeTags,
    countTransparent t (t ++ fillNone) q ∧ countTransparent t (t ++ fillWhite) q

instance isoLinePresDec (q : List Char) : Decidable (isoLinePres q) := by
  unfold isoLinePres
  have : Decidable (∀ t ∈ shapeTags,
      countTransparent t (t ++ fillNone) q ∧ countTransparent t (t ++ fillWhite) q) :=
    List.decidableBAll _ _
  exact instDecidableAnd

theorem countPos_firstTagFillNone_eq {q : List Char} (hq : q ≠ []) :
    ∀ (tags : List (List Char)) (c : List Char),
      (∀ t ∈ tags, t ≠ [] ∧ countTransparent t (t ++ fillNone) q) →
      countPos q (firstTagFillNone tags c) = countPos q c := by
  intro tags
  induction tags with
  | nil => intro c _; rw [firstTagFillNone]
  | cons t rest ih =>
      intro c hconds
      rw [firstTagFillNone]
      by_cases hct : containsSub t c = true
      · rw [if_pos hct]
        have hc := hconds t (List.mem_cons_self t rest)
        exact countPos_replaceAll_eq hc.1 hq hc.2 c
      · rw [if_neg hct]
        exact ih c (fun u hu => hconds u (List.mem_cons_of_mem t hu))

theorem countPos_isoFixLine_eq {q : List Char} (hq : q ≠ [])
    (hP : isoLinePres q) (c : List Char) :
    countPos q (isoFixLine c) = countPos q c := by
  have hall : ∀ u ∈ shapeTags, u ≠ [] := by decide
  have hfill : ∀ d, countPos q (isoFillStage d) = countPos q d := by
    intro d
    unfold isoFillStage
    by_cases h1 : (!(containsSub fillEq d) &&
        (containsSub sEq d || containsSub swEq d)) = true
    · rw [if_pos h1]
      by_cases hred : containsSub redStroke d = true
      · rw [if_pos hred]
        exact countPos_firstTagFillNone_eq hq shapeTags d
          (fun t ht => ⟨hall t ht, (hP.2 t ht).1⟩)
      · rw [if_neg hred]
        by_cases hpath : containsSub pathTag d = true
        · rw [if_pos hpath]
          by_cases hz : (d.contains 'Z' || d.contains 'z') = true
          · rw [if_pos hz]
            exact countPos_replaceAll_eq (by decide) hq
              (hP.2 pathTag (by decide)).2 d
          · rw [if_neg hz]
            exact countPos_replaceAll_eq (by decide) hq
              (hP.2 pathTag (by decide)).1 d
        · rw [if_neg hpath]
          by_cases hpoly : containsSub polygonTag d = true
          · rw [if_pos hpoly]
            exact countPos_replaceAll_eq (by decide) hq
              (hP.2 polygonTag (by decide)).2 d
          · rw [if_neg hpoly]
            by_cases hce : (containsSub circleTag d || containsSub ellipseTag d) = true
            · rw [if_pos hce]
              rw [countPos_replaceAll_eq (by decide) hq
                (hP.2 ellipseTag (by decide)).2]
              exact countPos_replaceAll_eq (by decide) hq
                (hP.2 circleTag (by decide)).2 d
            · rw [if_neg hce]
              by_cases hrect : containsSub rectTag d = true
              · rw [if_pos hrect]
                exact countPos_replaceAll_eq (by decide) hq
                  (hP.2 rectTag (by decide)).2 d
              · rw [if_neg hrect]
                by_cases hline : containsSub lineTag d = true
                · rw [if_pos hline]
                  exact countPos_replaceAll_eq (by decide) hq
                    (hP.2 lineTag (by decide)).1 d
                · rw [if_neg hline]
                  exact countPos_firstTagFillNone_eq hq shapeTags d
                    (fun t ht => ⟨hall t ht, (hP.2 t ht).1⟩)
    · rw [if_neg h1]
  unfold isoFixLine
  by_cases hsh : isShape c = true
  · rw [if_pos hsh, hfill (isoStroke c)]
    exact countPos_isoStroke_eq hq hP.1 c
  · rw [if_neg hsh]

theorem countPos_isoFixShapes_eq {q : List Char} (hq : q ≠ [])
    (hgt : '>' ∉ q) (hP : isoLinePres q) (s : List Char) :
    countPos q (isoFixShapes s) = countPos q s := by
  have hmap : ∀ L : List (List Char),
      ((L.map isoFixLine).map (countPos q)).sum = (L.map (countPos q)).sum := by
    intro L
    induction L with
    | nil => rfl
    | cons x t ih =>
        simp only [List.map_cons, List.sum_cons, ih,
          countPos_isoFixLine_eq hq hP x]
  unfold isoFixShapes
  rw [countPos_joinGt hgt hq ((splitGt s).map isoFixLine), hmap (splitGt s)]
  conv_rhs => rw [← joinGt_splitGt s]
  rw [countPos_joinGt hgt hq (splitGt s)]

theorem countPos_addXmlns_fire {q : List Char} (hq : q ≠ [])
    (hinj : injTransparent q) (hrq : noCrossOut xmlnsIns q)
    (hFr : noInner xmlnsIns q) {s : List Char}
    (hnone : containsSub xmlnsEq s = false)
    (hsvg : containsSub svgOpen s = true) :
    countPos q (addXmlns s) = countPos q xmlnsIns + countPos q s := by
  unfold addXmlns
  rw [if_neg (by rw [hnone]; exact Bool.false_ne_true)]
  exact countPos_replaceFirst_add (by decide) hq hsvg hinj.1 hinj.2.1 hrq
    hinj.2.2 hFr

theorem countPos_addXlink_eq {q : List Char} (hq : q ≠ [])
    (hinj : injTransparent q) (hrq : noCrossOut xlinkIns q)
    (hFr : noInner xlinkIns q) (h0 : countPos q xlinkIns = 0) {s : List Char}
    (hsvg : containsSub svgOpen s = true) :
    countPos q (addXlink s) = countPos q s := by
  unfold addXlink
  by_cases h : (containsSub xlinkHref s && !(containsSub xmlnsXlink s)) = true
  · rw [if_pos h, countPos_replaceFirst_add (by decide) hq hsvg hinj.1
      hinj.2.1 hrq hinj.2.2 hFr, h0]
    omega
  · rw [if_neg h]

theorem countPos_addDecl_eq {q : List Char} (hnc : noCrossOut declStr q)
    (h0 : countPos q declStr = 0) (s : List Char) :
    countPos q (addDecl s) = countPos q s := by
  unfold addDecl
  by_cases h : isPre declHead s = true
  · rw [if_pos h]
  · rw [if_neg h, countPos_append_nco hnc s, h0]
    omega

theorem svgOpen_addXmlns {s : List Char}
    (hsvg : containsSub svgOpen s = true) :
    containsSub svgOpen (addXmlns s) = true := by
  unfold addXmlns
  by_cases h : containsSub xmlnsEq s = true
  · rw [if_pos h]; exact hsvg
  · rw [if_neg h]
    exact containsSub_replaceFirst_rep (by decide) hsvg (by decide)

theorem countPos_cleanISO_fire (q : List Char) (hq : q ≠ []) (hgt : '>' ∉ q)
    (hinj : injTransparent q) (hP : isoLinePres q)
    (hrq1 : noCrossOut xmlnsIns q) (hF1 : noInner xmlnsIns q)
    (hrq2 : noCrossOut xlinkIns q) (hF2 : noInner xlinkIns q)
    (h0x : countPos q xlinkIns = 0)
    (hnc : noCrossOut declStr q) (h0d : countPos q declStr = 0)
    (s : List Char)
    (hnone : containsSub xmlnsEq (unquot (stripVAttrs s)) = false)
    (hsvg : containsSub svgOpen (unquot (stripVAttrs s)) = true) :
    countPos q (cleanISO s) =
      countPos q xmlnsIns + countPos q (unquot (stripVAttrs s)) := by
  have hsvg2 := svgOpen_addXmlns hsvg
  unfold cleanISO
  rw [countPos_addDecl_eq hnc h0d,
      countPos_isoFixShapes_eq hq hgt hP,
      countPos_addXlink_eq hq hinj hrq2 hF2 h0x hsvg2,
      countPos_addXmlns_fire hq hinj hrq1 hF1 hnone hsvg]

theorem countPos_cleanISO_id (q : List Char) (hq : q ≠ []) (hgt : '>' ∉ q)
    (hinj : injTransparent q) (hP : isoLinePres q)
    (hrq2 : noCrossOut xlinkIns q) (hF2 : noInner xlinkIns q)
    (h0x : countPos q xlinkIns = 0)
    (hnc : noCrossOut declStr q) (h0d : countPos q declStr = 0)
    (s : List Char)
    (hsome : containsSub xmlnsEq (unquot (stripVAttrs s)) = true)
    (hsvg : containsSub svgOpen (unquot (stripVAttrs s)) = true) :
    countPos q (cleanISO s) = countPos q (unquot (stripVAttrs s)) := by
  have hsvg2 := svgOpen_addXmlns hsvg
  unfold cleanISO
  rw [countPos_addDecl_eq hnc h0d,
      countPos_isoFixShapes_eq hq hgt hP,
      countPos_addXlink_eq hq hinj hrq2 hF2 h0x hsvg2]
  unfold addXmlns
  rw [if_pos hsome]

/-- C6: default-namespace injection is exactly-once.  Measured after the
strip/unescape prefix of the pipeline (steps 1-2), an input carrying at most
one `xmlns=` declaration and an `<svg` opening yields an output with exactly
one `xmlns=`; and when the input had none, the output carries the full
inserted declaration `xmlns="http://www.w3.org/2000/svg"`. -/
theorem c6_xmlns_exactly_once (s : List Char)
    (hle : countPos xmlnsEq (unquot (stripVAttrs s)) ≤ 1)
    (hsvg : containsSub svgOpen (unquot (stripVAttrs s)) = true) :
    countPos xmlnsEq (cleanISO s) = 1 ∧
      (containsSub xmlnsEq (unquot (stripVAttrs s)) = false →
        countPos xmlnsFull (cleanISO s) = 1) := by
  constructor
  · by_cases h : containsSub xmlnsEq (unquot (stripVAttrs s)) = true
    · rw [countPos_cleanISO_id xmlnsEq (by decide) (by decide) (by decide)
        (by decide) (by decide) (by decide) (by decide) (by decide) (by decide)
        s h hsvg]
      have hpos := countPos_pos_of_contains (by decide) h
      omega
    · have hnone : containsSub xmlnsEq (unquot (stripVAttrs s)) = false := by
        cases hv : containsSub xmlnsEq (unquot (stripVAttrs s))
        · rfl
        · exact absurd hv h
      rw [countPos_cleanISO_fire xmlnsEq (by decide) (by decide) (by decide)
        (by decide) (by decide) (by decide) (by decide) (by decide) (by decide)
        (by decide) (by decide) s hnone hsvg,
        (countPos_zero_iff (by decide)).mpr hnone]
      decide
  · intro hnone
    have habs : containsSub xmlnsFull (unquot (stripVAttrs s)) = false :=
      containsSub_absent_of_trans (by decide) hnone
    rw [countPos_cleanISO_fire xmlnsFull (by decide) (by decide) (by decide)
      (by decide) (by decide) (by decide) (by decide) (by decide) (by decide)
      (by decide) (by decide) s hnone hsvg,
      (countPos_zero_iff (by decide)).mpr habs]
    decide

/-- Witness for C6 on a concrete fragment without a namespace. -/
theorem c6_xmlns_exactly_once_witness :
    countPos xmlnsEq (cleanISO (("<svg><circle r=\"1\"/></svg>").toList)) = 1 ∧
      (containsSub xmlnsEq
          (unquot (stripVAttrs (("<svg><circle r=\"1\"/></svg>").toList))) = false →
        countPos xmlnsFull
          (cleanISO (("<svg><circle r=\"1\"/></svg>").toList)) = 1) :=
  c6_xmlns_exactly_once (("<svg><circle r=\"1\"/></svg>").toList)
    (by decide) (by decide)

/-! C1 support: structure of the split/fix/join pass and fixpoint analysis
of the per-chunk fixups. -/


theorem splitGt_append_gt {a : List Char} (ha : '>' ∉ a) (rest : List Char) :
    splitGt (a ++ '>' :: rest) = a :: splitGt rest := by
  induction a with
  | nil => rw [List.nil_append, splitGt, if_pos (by simp)]
  | cons c a2 ih =>
      have hc : ¬(c == '>') = true := by
        have hne : c ≠ '>' := fun h => ha (h ▸ List.mem_cons_self c a2)
        simp [hne]
      have ih2 := ih (fun h => ha (List.mem_cons_of_mem c h))
      rw [List.cons_append]
      exact splitGt_cons_ne _ hc ih2


theorem map_isoFixLine_id {N : List (List Char)}
    (h : ∀ m ∈ N, isoFixLine m = m) : N.map isoFixLine = N := by
  induction N with
  | nil => rfl
  | cons x t ih =>
      rw [List.map_cons, h x (List.mem_cons_self x t),
        ih (fun m hm => h m (List.mem_cons_of_mem x hm))]

theorem containsSub_cons_of_head_ne {d c : Char} {q : List Char}
    (h : (d == c) = false) (s : List Char) :
    containsSub (d :: q) (c :: s) = containsSub (d :: q) s := by
  simp [containsSub, isPre, h]

/-- The single-tag fill insertions of the ISO fill stage other than the
circle/ellipse double rewrite and the shared fallback loop. -/
def fillPairs : List (List Char × List Char) :=
  [(pathTag, pathTag ++ fillWhite), (pathTag, pathTag ++ fillNone),
   (polygonTag, polygonTag ++ fillWhite), (rectTag, rectTag ++ fillWhite),
   (lineTag, lineTag ++ fillNone)]

theorem isoFillStage_cases (d : List Char) :
    isoFillStage d = d ∨
    isoFillStage d = firstTagFillNone shapeTags d ∨
    (∃ p ∈ fillPairs, isoFillStage d = replaceAll p.1 p.2 d) ∨
    isoFillStage d = replaceAll ellipseTag (ellipseTag ++ fillWhite)
      (replaceAll circleTag (circleTag ++ fillWhite) d) := by
  unfold isoFillStage
  by_cases h1 : (!(containsSub fillEq d) &&
      (containsSub sEq d || containsSub swEq d)) = true
  · rw [if_pos h1]
    by_cases hred : containsSub redStroke d = true
    · rw [if_pos hred]; exact Or.inr (Or.inl rfl)
    · rw [if_neg hred]
      by_cases hpath : containsSub pathTag d = true
      · rw [if_pos hpath]
        by_cases hz : (d.contains 'Z' || d.contains 'z') = true
        · rw [if_pos hz]
          exact Or.inr (Or.inr (Or.inl
            ⟨(pathTag, pathTag ++ fillWhite), by decide, rfl⟩))
        · rw [if_neg hz]
          exact Or.inr (Or.inr (Or.inl
            ⟨(pathTag, pathTag ++ fillNone), by decide, rfl⟩))
      · rw [if_neg hpath]
        by_cases hpoly : containsSub polygonTag d = true
        · rw [if_pos hpoly]
          exact Or.inr (Or.inr (Or.inl
            ⟨(polygonTag, polygonTag ++ fillWhite), by decide, rfl⟩))
        · rw [if_neg hpoly]
          by_cases hce : (containsSub circleTag d || containsSub ellipseTag d) = true
          · rw [if_pos hce]
            exact Or.inr (Or.inr (Or.inr rfl))
          · rw [if_neg hce]
            by_cases hrect : containsSub rectTag d = true
            · rw [if_pos hrect]
              exact Or.inr (Or.inr (Or.inl
                ⟨(rectTag, rectTag ++ fillWhite), by decide, rfl⟩))
            · rw [if_neg hrect]
              by_cases hline : containsSub lineTag d = true
              · rw [if_pos hline]
                exact Or.inr (Or.inr (Or.inl
                  ⟨(lineTag, lineTag ++ fillNone), by decide, rfl⟩))
              · rw [if_neg hline]
                exact Or.inr (Or.inl rfl)
  · rw [if_neg h1]
    exact Or.inl rfl

theorem containsSub_firstTagFillNone_eq {q : List Char} (hq : q ≠ []) :
    ∀ (tags : List (List Char)) (d : List Char),
      (∀ t ∈ tags, t ≠ [] ∧ replaceAllTransparent t (t ++ fillNone) q) →
      containsSub q (firstTagFillNone tags d) = containsSub q d := by
  intro tags
  induction tags with
  | nil => intro d _; rw [firstTagFillNone]
  | cons t rest ih =>
      intro d hconds
      rw [firstTagFillNone]
      by_cases hct : containsSub t d = true
      · rw [if_pos hct]
        have hc := hconds t (List.mem_cons_self t rest)
        exact containsSub_replaceAll_eq hc.1 hc.2 d
      · rw [if_neg hct]
        exact ih d (fun u hu => hconds u (List.mem_cons_of_mem t hu))

theorem containsSub_isoFillStage_eq {q : List Char} (hq : q ≠ [])
    (hn : ∀ t ∈ shapeTags, replaceAllTransparent t (t ++ fillNone) q)
    (hw : ∀ t ∈ shapeTags, replaceAllTransparent t (t ++ fillWhite) q)
    (d : List Char) :
    containsSub q (isoFillStage d) = containsSub q d := by
  have hall : ∀ u ∈ shapeTags, u ≠ [] := by decide
  rcases isoFillStage_cases d with h | h | ⟨p, hp, h⟩ | h
  · rw [h]
  · rw [h]
    exact containsSub_firstTagFillNone_eq hq shapeTags d
      (fun t ht => ⟨hall t ht, hn t ht⟩)
  · simp only [fillPairs, List.mem_cons, List.not_mem_nil, or_false] at hp
    rcases hp with rfl | rfl | rfl | rfl | rfl
    · rw [h]; exact containsSub_replaceAll_eq (by decide) (hw pathTag (by decide)) d
    · rw [h]; exact containsSub_replaceAll_eq (by decide) (hn pathTag (by decide)) d
    · rw [h]; exact containsSub_replaceAll_eq (by decide) (hw polygonTag (by decide)) d
    · rw [h]; exact containsSub_replaceAll_eq (by decide) (hw rectTag (by decide)) d
    · rw [h]; exact containsSub_replaceAll_eq (by decide) (hn lineTag (by decide)) d
  · rw [h, containsSub_replaceAll_eq (by decide) (hw ellipseTag (by decide)),
      containsSub_replaceAll_eq (by decide) (hw circleTag (by decide))]

theorem containsSub_isoStroke_eq {q : List Char} (hq : q ≠ [])
    (ht : replaceAllTransparent swEq blackSW q) (c : List Char) :
    containsSub q (isoStroke c) = containsSub q c := by
  rcases isoStroke_eq_or c with h | h
  · rw [h]
  · rw [h]
    exact containsSub_replaceAll_eq (by decide) ht c

theorem containsSub_isoFixLine_eq {q : List Char} (hq : q ≠ [])
    (hs : replaceAllTransparent swEq blackSW q)
    (hn : ∀ t ∈ shapeTags, replaceAllTransparent t (t ++ fillNone) q)
    (hw : ∀ t ∈ shapeTags, replaceAllTransparent t (t ++ fillWhite) q)
    (c : List Char) :
    containsSub q (isoFixLine c) = containsSub q c := by
  unfold isoFixLine
  by_cases hsh : isShape c = true
  · rw [if_pos hsh, containsSub_isoFillStage_eq hq hn hw,
      containsSub_isoStroke_eq hq hs]
  · rw [if_neg hsh]

theorem isShape_isoStroke_eq (c : List Char) :
    isShape (isoStroke c) = isShape c := by
  unfold isShape shapeTags
  simp only [List.any_cons, List.any_nil]
  rw [containsSub_isoStroke_eq (q := pathTag) (by decide) (by decide) c,
    containsSub_isoStroke_eq (q := rectTag) (by decide) (by decide) c,
    containsSub_isoStroke_eq (q := circleTag) (by decide) (by decide) c,
    containsSub_isoStroke_eq (q := ellipseTag) (by decide) (by decide) c,
    containsSub_isoStroke_eq (q := polygonTag) (by decide) (by decide) c,
    containsSub_isoStroke_eq (q := polylineTag) (by decide) (by decide) c,
    containsSub_isoStroke_eq (q := lineTag) (by decide) (by decide) c]

theorem contains_firstTagFillNone_eq {x : Char}
    (hx : ∀ t ∈ shapeTags, x ∉ (t ++ fillNone)) :
    ∀ (tags : List (List Char)) (d : List Char),
      (∀ t ∈ tags, t ∈ shapeTags) →
      (firstTagFillNone tags d).contains x = d.contains x := by
  intro tags
  induction tags with
  | nil => intro d _; rw [firstTagFillNone]
  | cons t rest ih =>
      intro d hsub
      rw [firstTagFillNone]
      by_cases hct : containsSub t d = true
      · rw [if_pos hct]
        exact contains_replaceAll_eq [] fillNone (by simp)
          (hx t (hsub t (List.mem_cons_self t rest))) d
      · rw [if_neg hct]
        exact ih d (fun u hu => hsub u (List.mem_cons_of_mem t hu))

theorem contains_gt_isoFillStage_eq (d : List Char) :
    (isoFillStage d).contains '>' = d.contains '>' := by
  rcases isoFillStage_cases d with h | h | ⟨p, hp, h⟩ | h
  · rw [h]
  · rw [h]
    exact contains_firstTagFillNone_eq (by decide) shapeTags d (fun t ht => ht)
  · simp only [fillPairs, List.mem_cons, List.not_mem_nil, or_false] at hp
    rcases hp with rfl | rfl | rfl | rfl | rfl
    · rw [h]; exact contains_replaceAll_eq [] fillWhite (by simp) (by decide) d
    · rw [h]; exact contains_replaceAll_eq [] fillNone (by simp) (by decide) d
    · rw [h]; exact contains_replaceAll_eq [] fillWhite (by simp) (by decide) d
    · rw [h]; exact contains_replaceAll_eq [] fillWhite (by simp) (by decide) d
    · rw [h]; exact contains_replaceAll_eq [] fillNone (by simp) (by decide) d
  · rw [h, contains_replaceAll_eq [] fillWhite (by simp) (by decide),
      contains_replaceAll_eq [] fillWhite (by simp) (by decide)]

theorem contains_gt_isoFixLine_eq (c : List Char) :
    (isoFixLine c).contains '>' = c.contains '>' := by
  unfold isoFixLine
  by_cases hsh : isShape c = true
  · rw [if_pos hsh, contains_gt_isoFillStage_eq]
    rcases isoStroke_eq_or c with h | h
    · rw [h]
    · rw [h]
      exact contains_replaceAll_eq (("stroke=\"#000000\" ").toList) []
        (by decide) (by decide) c
  · rw [if_neg hsh]

theorem not_gt_isoFixLine {c : List Char} (h : '>' ∉ c) :
    '>' ∉ isoFixLine c := by
  have heq := contains_gt_isoFixLine_eq c
  intro hmem
  have h1 : (isoFixLine c).contains '>' = true := by simpa using hmem
  rw [heq] at h1
  exact h (by simpa using h1)

/-- After the stroke fixup has run, a second run of it is a no-op: the chunk
either has no stroke-width or already has a stroke. -/
def strokeDone (c : List Char) : Prop :=
  containsSub swEq c = false ∨ containsSub sEq c = true

/-- After the fill fixup has run on a shape chunk, a second run of it is a
no-op: the chunk has an explicit fill or no stroke information at all. -/
def fillDone (c : List Char) : Prop :=
  containsSub fillEq c = true ∨
    (containsSub sEq c = false ∧ containsSub swEq c = false)

theorem strokeDone_isoStroke (c : List Char) : strokeDone (isoStroke c) := by
  unfold isoStroke
  by_cases h1 : (containsSub swEq c && !(containsSub sEq c)) = true
  · rw [if_pos h1]
    by_cases hred : (!(containsSub redStroke c)) = true
    · rw [if_pos hred]
      right
      have hsw : containsSub swEq c = true := by
        simp only [Bool.and_eq_true] at h1
        exact h1.1
      exact containsSub_trans (by decide) (containsSub_rep (by decide) hsw)
    · rw [if_neg hred]
      right
      have hr : containsSub redStroke c = true := by
        cases hv : containsSub redStroke c
        · rw [hv] at hred; simp at hred
        · rfl
      exact containsSub_trans (by decide) hr
  · rw [if_neg h1]
    simp only [Bool.and_eq_true, Bool.not_eq_true', not_and] at h1
    cases hv : containsSub swEq c
    · exact Or.inl hv
    · exact Or.inr (by
        have h2 := h1 hv
        cases hw : containsSub sEq c
        · rw [hw] at h2; simp at h2
        · rfl)

theorem strokeDone_isoFillStage {d : List Char} (h : strokeDone d) :
    strokeDone (isoFillStage d) := by
  rcases h with h | h
  · exact Or.inl (by
      rw [containsSub_isoFillStage_eq (q := swEq) (by decide) (by decide)
        (by decide) d]
      exact h)
  · exact Or.inr (by
      rw [containsSub_isoFillStage_eq (q := sEq) (by decide) (by decide)
        (by decide) d]
      exact h)

theorem fillDone_isoFillStage {d : List Char} (hsh : isShape d = true) :
    fillDone (isoFillStage d) := by
  unfold isoFillStage
  by_cases h1 : (!(containsSub fillEq d) &&
      (containsSub sEq d || containsSub swEq d)) = true
  · rw [if_pos h1]
    left
    by_cases hred : containsSub redStroke d = true
    · rw [if_pos hred]
      exact containsSub_trans (by decide)
        (firstTagFillNone_fill shapeTags d (by decide) hsh)
    · rw [if_neg hred]
      by_cases hpath : containsSub pathTag d = true
      · rw [if_pos hpath]
        by_cases hz : (d.contains 'Z' || d.contains 'z') = true
        · rw [if_pos hz]
          exact containsSub_trans (by decide)
            (containsSub_rep (by decide) hpath)
        · rw [if_neg hz]
          exact containsSub_trans (by decide)
            (containsSub_rep (by decide) hpath)
      · rw [if_neg hpath]
        by_cases hpoly : containsSub polygonTag d = true
        · rw [if_pos hpoly]
          exact containsSub_trans (by decide)
            (containsSub_rep (by decide) hpoly)
        · rw [if_neg hpoly]
          by_cases hce : (containsSub circleTag d || containsSub ellipseTag d) = true
          · rw [if_pos hce]
            by_cases hcir : containsSub circleTag d = true
            · have hmid : containsSub fillEq
                  (replaceAll circleTag (circleTag ++ fillWhite) d) = true :=
                containsSub_trans (by decide)
                  (containsSub_rep (by decide) hcir)
              exact containsSub_replaceAll_pres (by decide) (by decide)
                (by decide) (by decide) hmid
            · have hell : containsSub ellipseTag d = true := by
                simp only [Bool.or_eq_true] at hce
                rcases hce with h2 | h2
                · exact absurd h2 hcir
                · exact h2
              have hcf : containsSub circleTag d = false := by
                cases hv : containsSub circleTag d
                · rfl
                · exact absurd hv hcir
              rw [replaceAll_id_of_not_contains hcf]
              exact containsSub_trans (by decide)
                (containsSub_rep (by decide) hell)
          · rw [if_neg hce]
            by_cases hrect : containsSub rectTag d = true
            · rw [if_pos hrect]
              exact containsSub_trans (by decide)
                (containsSub_rep (by decide) hrect)
            · rw [if_neg hrect]
              by_cases hline : containsSub lineTag d = true
              · rw [if_pos hline]
                exact containsSub_trans (by decide)
                  (containsSub_rep (by decide) hline)
              · rw [if_neg hline]
                exact containsSub_trans (by decide)
                  (firstTagFillNone_fill shapeTags d (by decide) hsh)
  · rw [if_neg h1]
    by_cases hf : containsSub fillEq d = true
    · exact Or.inl hf
    · right
      have hff : containsSub fillEq d = false := by
        cases hv : containsSub fillEq d
        · rfl
        · exact absurd hv hf
      rw [hff] at h1
      simp only [Bool.not_false, Bool.true_and, Bool.or_eq_true, not_or] at h1
      constructor
      · cases hv : containsSub sEq d
        · rfl
        · exact absurd hv h1.1
      · cases hv : containsSub swEq d
        · rfl
        · exact absurd hv h1.2

theorem isoFixLine_id_of_done {c : List Char} (h1 : strokeDone c)
    (h2 : fillDone c) : isoFixLine c = c := by
  unfold isoFixLine
  by_cases hsh : isShape c = true
  · rw [if_pos hsh]
    have hstroke : isoStroke c = c := by
      unfold isoStroke
      rw [if_neg]
      rcases h1 with h | h
      · rw [h]; simp
      · rw [h]; simp
    rw [hstroke]
    unfold isoFillStage
    rw [if_neg]
    rcases h2 with h | h
    · rw [h]; simp
    · rw [h.1, h.2]; simp
  · rw [if_neg hsh]

theorem isoFixLine_fixpoint (c : List Char) :
    isoFixLine (isoFixLine c) = isoFixLine c := by
  by_cases hsh : isShape c = true
  · have hm : isoFixLine c = isoFillStage (isoStroke c) := by
      unfold isoFixLine
      rw [if_pos hsh]
    rw [hm]
    exact isoFixLine_id_of_done
      (strokeDone_isoFillStage (strokeDone_isoStroke c))
      (fillDone_isoFillStage (by rw [isShape_isoStroke_eq]; exact hsh))
  · have hm : isoFixLine c = c := by
      unfold isoFixLine
      rw [if_neg hsh]
    rw [hm, hm]

theorem containsSub_cons_ne {q : List Char} {c : Char}
    (h : ∃ d q2, q = d :: q2 ∧ (d == c) = false) (s : List Char) :
    containsSub q (c :: s) = containsSub q s := by
  obtain ⟨d, q2, rfl, hd⟩ := h
  exact containsSub_cons_of_head_ne hd s

theorem isShape_cons_nl (m : List Char) : isShape ('\n' :: m) = isShape m := by
  unfold isShape shapeTags
  simp only [List.any_cons, List.any_nil]
  rw [containsSub_cons_ne ⟨'<', ("path").toList, by decide, by decide⟩ m,
    containsSub_cons_ne ⟨'<', ("rect").toList, by decide, by decide⟩ m,
    containsSub_cons_ne ⟨'<', ("circle").toList, by decide, by decide⟩ m,
    containsSub_cons_ne ⟨'<', ("ellipse").toList, by decide, by decide⟩ m,
    containsSub_cons_ne ⟨'<', ("polygon").toList, by decide, by decide⟩ m,
    containsSub_cons_ne ⟨'<', ("polyline").toList, by decide, by decide⟩ m,
    containsSub_cons_ne ⟨'<', ("line").toList, by decide, by decide⟩ m]

theorem strokeDone_cons_nl {m : List Char} (h : strokeDone m) :
    strokeDone ('\n' :: m) := by
  rcases h with h | h
  · exact Or.inl (by
      rw [containsSub_cons_ne ⟨'s', ("troke-width=").toList, by decide, by decide⟩ m]
      exact h)
  · exact Or.inr (by
      rw [containsSub_cons_ne ⟨'s', ("troke=").toList, by decide, by decide⟩ m]
      exact h)

theorem fillDone_cons_nl {m : List Char} (h : fillDone m) :
    fillDone ('\n' :: m) := by
  rcases h with h | h
  · exact Or.inl (by
      rw [containsSub_cons_ne ⟨'f', ("ill=").toList, by decide, by decide⟩ m]
      exact h)
  · refine Or.inr ⟨?_, ?_⟩
    · rw [containsSub_cons_ne ⟨'s', ("troke=").toList, by decide, by decide⟩ m]
      exact h.1
    · rw [containsSub_cons_ne ⟨'s', ("troke-width=").toList, by decide, by decide⟩ m]
      exact h.2

theorem isoFixLine_nl_fixpoint (c : List Char) :
    isoFixLine ('\n' :: isoFixLine c) = '\n' :: isoFixLine c := by
  by_cases hsh : isShape c = true
  · have hm : isoFixLine c = isoFillStage (isoStroke c) := by
      unfold isoFixLine
      rw [if_pos hsh]
    rw [hm]
    exact isoFixLine_id_of_done
      (strokeDone_cons_nl (strokeDone_isoFillStage (strokeDone_isoStroke c)))
      (fillDone_cons_nl (fillDone_isoFillStage
        (by rw [isShape_isoStroke_eq]; exact hsh)))
  · have hm : isoFixLine c = c := by
      unfold isoFixLine
      rw [if_neg hsh]
    rw [hm]
    unfold isoFixLine
    rw [if_neg (by rw [isShape_cons_nl]; exact hsh)]

/-- The shape-fixup stage followed by the XML-declaration stage is a
fixpoint of itself: running both again changes nothing. -/
theorem EF_fixpoint (z : List Char) :
    addDecl (isoFixShapes (addDecl (isoFixShapes z))) =
      addDecl (isoFixShapes z) := by
  have hLne : splitGt z ≠ [] := splitGt_ne_nil z
  set E := isoFixShapes z with hEdef
  have hEj : E = joinGt ((splitGt z).map isoFixLine) := by
    rw [hEdef]
    unfold isoFixShapes
    rfl
  have hMgt : ∀ m ∈ (splitGt z).map isoFixLine, '>' ∉ m := by
    intro m hm
    obtain ⟨l, hl, rfl⟩ := List.mem_map.mp hm
    exact not_gt_isoFixLine (splitGt_no_gt l hl)
  have hMne : (splitGt z).map isoFixLine ≠ [] := by
    cases hv : splitGt z with
    | nil => exact absurd hv hLne
    | cons a b => simp
  have hfix : ∀ m ∈ (splitGt z).map isoFixLine, isoFixLine m = m := by
    intro m hm
    obtain ⟨l, hl, rfl⟩ := List.mem_map.mp hm
    exact isoFixLine_fixpoint l
  have hsE : splitGt E = (splitGt z).map isoFixLine := by
    rw [hEj]
    exact splitGt_joinGt hMne hMgt
  by_cases hpre : isPre declHead E = true
  · have hid : addDecl E = E := by
      unfold addDecl
      rw [if_pos hpre]
    rw [hid]
    have hfixE : isoFixShapes E = E := by
      unfold isoFixShapes
      rw [hsE, map_isoFixLine_id hfix, ← hEj]
    rw [hfixE, hid]
  · have hne : addDecl E = declStr ++ E := by
      unfold addDecl
      rw [if_neg hpre]
    obtain ⟨m0, M2, hM⟩ : ∃ m0 M2, (splitGt z).map isoFixLine = m0 :: M2 := by
      cases hv : (splitGt z).map isoFixLine with
      | nil => exact absurd hv hMne
      | cons a b => exact ⟨a, b, rfl⟩
    have hdecl : declStr =
        (("<?xml version=\"1.0\" encoding=\"UTF-8\"?").toList) ++ '>' :: ['\n'] := by
      decide
    have hsplit_t : splitGt (declStr ++ E) =
        (("<?xml version=\"1.0\" encoding=\"UTF-8\"?").toList) ::
          ('\n' :: m0) :: M2 := by
      rw [hdecl, List.append_assoc, List.cons_append,
        splitGt_append_gt (by decide)]
      congr 1
      rw [List.singleton_append]
      exact splitGt_cons_ne _ (by decide) (hsE.trans hM)
    have hfix0 : isoFixLine (("<?xml version=\"1.0\" encoding=\"UTF-8\"?").toList) =
        (("<?xml version=\"1.0\" encoding=\"UTF-8\"?").toList) := by decide
    have hm0M : m0 ∈ (splitGt z).map isoFixLine := by
      rw [hM]
      exact List.mem_cons_self _ _
    obtain ⟨l0, hl0, hm0⟩ := List.mem_map.mp hm0M
    have hfix1 : isoFixLine ('\n' :: m0) = '\n' :: m0 := by
      rw [← hm0]
      exact isoFixLine_nl_fixpoint l0
    have hfixM2 : M2.map isoFixLine = M2 :=
      map_isoFixLine_id (fun m hm => hfix m
        (by rw [hM]; exact List.mem_cons_of_mem _ hm))
    have hjoin : joinGt (m0 :: M2) = E := by
      rw [← hM, ← hEj]
    have hfixShapes_t : isoFixShapes (declStr ++ E) = declStr ++ E := by
      unfold isoFixShapes
      rw [hsplit_t, List.map_cons, List.map_cons, hfix0, hfix1, hfixM2,
        joinGt, joinGt_cons_head, hjoin, hdecl]
      simp
    rw [hne, hfixShapes_t]
    have hpre2 : addDecl (declStr ++ E) = declStr ++ E := by
      unfold addDecl
      rw [if_pos (isPre_mono_right E (by decide))]
    rw [hpre2]

theorem containsSub_EF_eq {q : List Char} (hq : q ≠ []) (hgt : '>' ∉ q)
    (hP : isoLinePres q) (hnc : noCrossOut declStr q)
    (h0d : countPos q declStr = 0) (z : List Char) :
    containsSub q (addDecl (isoFixShapes z)) = containsSub q z := by
  have hcnt : countPos q (addDecl (isoFixShapes z)) = countPos q z := by
    rw [countPos_addDecl_eq hnc h0d, countPos_isoFixShapes_eq hq hgt hP]
  cases hv : containsSub q z
  · rw [(countPos_zero_iff hq).mpr hv] at hcnt
    cases hw : containsSub q (addDecl (isoFixShapes z))
    · rfl
    · exfalso
      have hp2 := countPos_pos_of_contains hq hw
      omega
  · have hpos : 0 < countPos q z := countPos_pos_of_contains hq hv
    exact contains_of_countPos_pos hq (by omega)

/-- A second run of the xlink-namespace injection on normalizer output is a
no-op. -/
theorem addXlink_cleanISO (s : List Char) :
    addXlink (cleanISO s) = cleanISO s := by
  set v := addXmlns (unquot (stripVAttrs s)) with hv
  have hw : cleanISO s = addDecl (isoFixShapes (addXlink v)) := rfl
  by_cases hg : (containsSub xlinkHref v && !(containsSub xmlnsXlink v)) = true
  · by_cases hsv : containsSub svgOpen v = true
    · have hwrep : addXlink v = replaceFirst svgOpen xlinkIns v := by
        unfold addXlink
        rw [if_pos hg]
      have hxx : containsSub xmlnsXlink (addXlink v) = true := by
        rw [hwrep]
        exact containsSub_replaceFirst_rep (by decide) hsv (by decide)
      have hxxt : containsSub xmlnsXlink (cleanISO s) = true := by
        rw [hw, containsSub_EF_eq (by decide) (by decide) (by decide)
          (by decide) (by decide)]
        exact hxx
      unfold addXlink
      rw [if_neg (by rw [hxxt]; simp)]
    · have hsvf : containsSub svgOpen v = false := by
        cases hu : containsSub svgOpen v
        · rfl
        · exact absurd hu hsv
      have hwv : addXlink v = v := by
        unfold addXlink
        rw [if_pos hg, replaceFirst_id_of_not_contains hsvf]
      have hsvt : containsSub svgOpen (cleanISO s) = false := by
        rw [hw, hwv, containsSub_EF_eq (by decide) (by decide) (by decide)
          (by decide) (by decide)]
        exact hsvf
      unfold addXlink
      by_cases hg2 : (containsSub xlinkHref (cleanISO s) &&
          !(containsSub xmlnsXlink (cleanISO s))) = true
      · rw [if_pos hg2, replaceFirst_id_of_not_contains hsvt]
      · rw [if_neg hg2]
  · have hwv : addXlink v = v := by
      unfold addXlink
      rw [if_neg hg]
    by_cases hhref : containsSub xlinkHref v = true
    · have hxxv : containsSub xmlnsXlink v = true := by
        cases hu : containsSub xmlnsXlink v
        · exfalso
          apply hg
          rw [hhref, hu]
          rfl
        · rfl
      have hxxt : containsSub xmlnsXlink (cleanISO s) = true := by
        rw [hw, hwv, containsSub_EF_eq (by decide) (by decide) (by decide)
          (by decide) (by decide)]
        exact hxxv
      unfold addXlink
      rw [if_neg (by rw [hxxt]; simp)]
    · have hhf : containsSub xlinkHref v = false := by
        cases hu : containsSub xlinkHref v
        · rfl
        · exact absurd hu hhref
      have hht : containsSub xlinkHref (cleanISO s) = false := by
        rw [hw, hwv, containsSub_EF_eq (by decide) (by decide) (by decide)
          (by decide) (by decide)]
        exact hhf
      unfold addXlink
      rw [if_neg (by rw [hht]; simp)]

/-- Normalizer output always carries a default-namespace declaration when
the input had a root `<svg` opening. -/
theorem xmlnsEq_mem_cleanISO (s : List Char)
    (hsvg : containsSub svgOpen (unquot (stripVAttrs s)) = true) :
    containsSub xmlnsEq (cleanISO s) = true := by
  by_cases hy : containsSub xmlnsEq (unquot (stripVAttrs s)) = true
  · have hcnt := countPos_cleanISO_id xmlnsEq (by decide) (by decide)
      (by decide) (by decide) (by decide) (by decide) (by decide) (by decide)
      (by decide) s hy hsvg
    have hpos := countPos_pos_of_contains (by decide) hy
    exact contains_of_countPos_pos (by decide) (by rw [hcnt]; exact hpos)
  · have hnone : containsSub xmlnsEq (unquot (stripVAttrs s)) = false := by
      cases hu : containsSub xmlnsEq (unquot (stripVAttrs s))
      · rfl
      · exact absurd hu hy
    have hcnt := countPos_cleanISO_fire xmlnsEq (by decide) (by decide)
      (by decide) (by decide) (by decide) (by decide) (by decide) (by decide)
      (by decide) (by decide) (by decide) s hnone hsvg
    have h1 : countPos xmlnsEq xmlnsIns = 1 := by decide
    exact contains_of_countPos_pos (by decide) (by rw [hcnt, h1]; omega)

set_option maxRecDepth 8000

/-- C1 counterexample: the normalizer is NOT idempotent.  Unescaping
`&quot;` can expose a new vendor-attribute match inside a former attribute
value, so the second run strips more text: for the input
`<svg><rect title="&quot; v:a=&quot;1&quot;"/></svg>` the second run's
output differs from the first run's. -/
theorem c1_counterexample :
    cleanISO (cleanISO
      (("<svg><rect title=\"&quot; v:a=&quot;1&quot;\"/></svg>").toList)) ≠
      cleanISO (("<svg><rect title=\"&quot; v:a=&quot;1&quot;\"/></svg>").toList) := by
  decide

/-- C1 (amended): the normalizer is idempotent on every input (with a root
`<svg` opening, per the input contract) whose first-run output is left
unchanged by the vendor-attribute strip and the `&quot;` unescape — i.e.
whenever steps 1-2 do not find new material in the output.  The
counterexample shows the hypothesis is needed: unescaping can manufacture a
fresh vendor-attribute match. -/
theorem c1_amended_idempotent (s : List Char)
    (hsvg : containsSub svgOpen (unquot (stripVAttrs s)) = true)
    (hA : stripVAttrs (cleanISO s) = cleanISO s)
    (hB : unquot (cleanISO s) = cleanISO s) :
    cleanISO (cleanISO s) = cleanISO s := by
  have hC : addXmlns (cleanISO s) = cleanISO s := by
    unfold addXmlns
    rw [if_pos (xmlnsEq_mem_cleanISO s hsvg)]
  have hD := addXlink_cleanISO s
  show addDecl (isoFixShapes (addXlink (addXmlns (unquot (stripVAttrs (cleanISO s)))))) =
    cleanISO s
  rw [hA, hB, hC, hD]
  exact EF_fixpoint (addXlink (addXmlns (unquot (stripVAttrs s))))

/-- Witness for C1's amended statement on a concrete fragment. -/
theorem c1_amended_idempotent_witness :
    cleanISO (cleanISO (("<svg><circle r=\"1\"/></svg>").toList)) =
      cleanISO (("<svg><circle r=\"1\"/></svg>").toList) :=
  c1_amended_idempotent (("<svg><circle r=\"1\"/></svg>").toList)
    (by decide) (by decide) (by decide)

end PidSpec
